import Mathlib

/-!
# Verification of the molasses CGKA core

A shallow embedding of the ratchet-tree and handshake core of the molasses
MLS implementation (src/ratchet_tree.rs, src/handshake.rs), together with
proofs and refutations of the specification's claims.

The `tree_math` index arithmetic, the cipher-suite crypto primitives, and
the TLS wire codec are not part of the provided sources; where a claim
depends on them they are modelled from the specification, as indicated by
doc comments starting with "Modelled from the spec:".
-/

namespace Molasses

/-! ## Dyadic index arithmetic

Nodes of a left-balanced binary tree are laid out in-order on `0, 1, 2, ...`.
A node with `k` trailing ones in its index sits at height `k`; its subtree
occupies the contiguous index range `[x + 1 - 2^k, x + 2^k - 1]`.
-/

/-- Fuel-driven count of trailing one bits; `node_level` instantiates the fuel. -/
def levelAux : Nat → Nat → Nat
  | 0, _ => 0
  | fuel + 1, x => if x % 2 = 1 then levelAux fuel (x / 2) + 1 else 0

/-- Modelled from the spec: `node_level(i)` is the number of trailing ones in `i`;
leaves have level 0. -/
def node_level (x : Nat) : Nat := levelAux x x
/-- Fuel-driven floor of the base-2 logarithm (0 below 2). -/
def log2Aux : Nat → Nat → Nat
  | 0, _ => 0
  | fuel + 1, n => if n < 2 then 0 else log2Aux fuel (n / 2) + 1

/-- Floor of the base-2 logarithm, written with explicit fuel so that it
reduces definitionally (the kernel cannot unfold well-founded recursion). -/
def floor_log2 (n : Nat) : Nat := log2Aux n n
/-! ### Subtree ranges and ancestors in the in-order layout -/

/-- Lowest index in the (complete, infinite-layout) subtree of `x`. -/
def subtree_lo (x : Nat) : Nat := x + 1 - 2 ^ node_level x

/-- Highest index in the (complete, infinite-layout) subtree of `x`. -/
def subtree_hi (x : Nat) : Nat := x + 2 ^ node_level x - 1

/-- The level-`ℓ` ancestor of `x` in the complete in-order layout. -/
def anc (x ℓ : Nat) : Nat := x / 2 ^ (ℓ + 1) * 2 ^ (ℓ + 1) + (2 ^ ℓ - 1)
/-! ## tree_math

The `tree_math` module is referenced by `ratchet_tree.rs` but its source is
not part of the repository snapshot, so its functions are modelled from
section 4.A of the specification.  `node_direct_path` is the one place where
the spec is internally inconsistent: section 4.A calls it the strict
ancestors of `i`, but the indexing of `node_messages` by positions in
`node_extended_direct_path` in `decrypt_direct_path_message` (spec 4.C.4
step 2), the one-step-ahead remark in section 9, and the repository's own
round-trip test only cohere when the direct path starts at the node itself
and excludes the root, so that the extended path is the direct path with
the root appended.  That reading is adopted here.
-/

/-- Modelled from the spec: `num_nodes_in_tree(L) = 2L - 1`. -/
def num_nodes_in_tree (num_leaves : Nat) : Nat := 2 * num_leaves - 1

/-- Modelled from the spec: `num_leaves_in_tree(N) = (N + 1) / 2`. -/
def num_leaves_in_tree (num_nodes : Nat) : Nat := (num_nodes + 1) / 2

/-- Modelled from the spec: `root_idx(L)` is the largest power of two that is
at most `N = 2L - 1`, minus one. -/
def root_idx (num_leaves : Nat) : Nat := 2 ^ floor_log2 (2 * num_leaves - 1) - 1

/-- Modelled from the spec: `tree_leaves(L)` lists the even indices
`0, 2, ..., 2(L-1)`. -/
def tree_leaves (num_leaves : Nat) : List Nat :=
  (List.range num_leaves).map (fun i => 2 * i)

/-- Modelled from the spec: `node_left_child(i) = i - 2^(level(i)-1)`. -/
def node_left_child (x : Nat) : Nat := x - 2 ^ (node_level x - 1)

/-- Fuel-driven left descent used by `node_right_child`; the fuel always
suffices because each step strictly decreases the index. -/
def leftDescendAux : Nat → Nat → Nat → Nat
  | 0, y, _ => y
  | fuel + 1, y, n =>
    if y < n then y else if y = 0 then 0 else leftDescendAux fuel (node_left_child y) n

/-- Descend through left children until the index is inside the tree. -/
def left_descend (y n : Nat) : Nat := leftDescendAux (y + 1) y n

/-- Modelled from the spec: `node_right_child(i, L)` starts from
`i + 2^(level(i)-1)` and descends to left children until inside the tree. -/
def node_right_child (x : Nat) (num_leaves : Nat) : Nat :=
  left_descend (x + 2 ^ (node_level x - 1)) (2 * num_leaves - 1)

/-- Modelled from the spec: `node_extended_direct_path(i, L) = [i, parents..., root]`,
realised as the in-tree ancestors of `i` listed by increasing level. -/
def node_extended_direct_path (x : Nat) (num_leaves : Nat) : List Nat :=
  (List.range (floor_log2 (2 * num_leaves - 1) + 1)).filterMap (fun ℓ =>
    if node_level x ≤ ℓ ∧ anc x ℓ < 2 * num_leaves - 1 then some (anc x ℓ) else none)

/-- Modelled from the spec: the direct path of `i`, i.e. the extended direct
path without the final root entry (see the module comment above on the
self-inclusive reading). -/
def node_direct_path (x : Nat) (num_leaves : Nat) : List Nat :=
  (List.range (floor_log2 (2 * num_leaves - 1))).filterMap (fun ℓ =>
    if node_level x ≤ ℓ ∧ anc x ℓ < 2 * num_leaves - 1 then some (anc x ℓ) else none)

/-- Modelled from the spec: `node_parent(i, L)` is the unique in-tree ancestor
one step up the extended direct path. -/
def node_parent (x : Nat) (num_leaves : Nat) : Nat :=
  match node_extended_direct_path x num_leaves with
  | _ :: p :: _ => p
  | _ => x

/-- Modelled from the spec: `node_sibling(i, L)` is the other child of the
parent of `i`. -/
def node_sibling (x : Nat) (num_leaves : Nat) : Nat :=
  let p := node_parent x num_leaves
  if x < p then node_right_child p num_leaves else node_left_child p

/-- Modelled from the spec: `is_ancestor(a, d, L)` is true iff `a` lies on the
extended direct path of `d`. -/
def is_ancestor (a d : Nat) (num_leaves : Nat) : Bool :=
  decide (a ∈ node_extended_direct_path d num_leaves)

/-- Modelled from the spec: `common_ancestor(i, j, L)` is the lowest in-tree
node whose subtree contains both `i` and `j`. -/
def common_ancestor (i j : Nat) (num_leaves : Nat) : Nat :=
  ((node_extended_direct_path i num_leaves).find?
    (fun a => is_ancestor a j num_leaves)).getD (root_idx num_leaves)

/-! ## Crypto model

The cipher-suite primitives are external collaborators (spec section 1);
they are modelled symbolically: key pairs share their seed, ECIES records
the recipient key and payload, and decryption succeeds exactly when the
private key matches the recorded public key.
-/

/-- Modelled from the spec: an opaque DH public key. -/
structure DhPublicKey where
  key_bytes : List Nat
deriving DecidableEq

/-- Modelled from the spec: an opaque DH private key. -/
structure DhPrivateKey where
  key_bytes : List Nat
deriving DecidableEq

/-- The public key corresponding to a private key in the symbolic model. -/
def dh_public_of (sk : DhPrivateKey) : DhPublicKey := ⟨sk.key_bytes⟩

/-- Modelled from the spec: the opaque cipher-suite capability; only its wire
identifier and hash algorithm tag are observable to this core. -/
structure CipherSuite where
  suite_id : Nat
  hash_alg : Nat
deriving DecidableEq

/-- Modelled from the spec: `derive_key_pair(seed) -> (pub, priv)`; in the
symbolic model both halves carry the seed, so they match each other. -/
def derive_key_pair (cs : CipherSuite) (seed : List Nat) : DhPublicKey × DhPrivateKey :=
  (⟨seed⟩, ⟨seed⟩)

/-- Modelled from the spec: an ECIES ciphertext is a self-describing
structure; symbolically it records the recipient public key and payload. -/
structure EciesCiphertext where
  public_key : DhPublicKey
  payload : List Nat
deriving DecidableEq

/-- The error kinds of the core (src/error.rs is summarised by spec section 7);
a Rust panic is modelled as the `Panicked` value. -/
inductive Error where
  | TreeError (msg : String)
  | EncryptionError
  | Panicked (msg : String)
deriving DecidableEq

/-- Modelled from the spec: `ecies::ecies_encrypt`; infallible in the
symbolic model, and the RNG only feeds randomness that decryption ignores. -/
def ecies_encrypt (cs : CipherSuite) (pk : DhPublicKey) (plaintext : List Nat)
    (csprng : Nat) : EciesCiphertext :=
  ⟨pk, plaintext⟩

/-- Modelled from the spec: `ecies::ecies_decrypt` recovers the payload
exactly when the private key matches the recipient public key. -/
def ecies_decrypt (cs : CipherSuite) (sk : DhPrivateKey) (ct : EciesCiphertext) :
    Except Error (List Nat) :=
  if dh_public_of sk = ct.public_key then Except.ok ct.payload
  else Except.error Error.EncryptionError

/-- Modelled from the spec: HKDF-Extract; symbolically the identity on the
input keying material. -/
def prk_from_bytes (hash_alg : Nat) (bytes : List Nat) : List Nat := bytes

/-- Modelled from the spec: HKDF-Expand-Label; symbolically it tags the PRK
with the label and context. -/
def hkdf_expand_label (prk : List Nat) (label : List Nat) (context : List Nat) : List Nat :=
  label ++ context ++ prk

/-- The bytes of the literal `b"node"`. -/
def node_label : List Nat := [110, 111, 100, 101]

/-- The bytes of the literal `b"path"`. -/
def path_label : List Nat := [112, 97, 116, 104]

/-! ## RatchetTreeNode (src/ratchet_tree.rs lines 18-148) -/

/-- A node in a `RatchetTree`: `Blank`, or `Filled` with a public key and
optionally the private key and a secret. -/
inductive RatchetTreeNode where
  | Blank : RatchetTreeNode
  | Filled (public_key : DhPublicKey) (private_key : Option DhPrivateKey)
      (secret : Option (List Nat)) : RatchetTreeNode
deriving DecidableEq

/-- Returns true iff this is the Filled variant (lines 36-42). -/
def RatchetTreeNode.is_filled : RatchetTreeNode → Bool
  | .Blank => false
  | .Filled _ _ _ => true

/-- Updates the node's public key; the only way to convert Blank to Filled
(lines 46-60). -/
def RatchetTreeNode.update_public_key : RatchetTreeNode → DhPublicKey → RatchetTreeNode
  | .Blank, new_public_key => .Filled new_public_key none none
  | .Filled _ sk sec, new_public_key => .Filled new_public_key sk sec

/-- Updates the node's private key; the source panics on a Blank node
(lines 76-87), modelled as `none`. -/
def RatchetTreeNode.update_private_key :
    RatchetTreeNode → DhPrivateKey → Option RatchetTreeNode
  | .Blank, _ => none
  | .Filled pk _ sec, new_private_key => some (.Filled pk (some new_private_key) sec)

/-- Updates the node's secret; the source panics on a Blank node
(lines 92-103), modelled as `none`. -/
def RatchetTreeNode.update_secret : RatchetTreeNode → List Nat → Option RatchetTreeNode
  | .Blank, _ => none
  | .Filled pk sk _, new_secret => some (.Filled pk sk (some new_secret))

/-- Returns the node's public key, `none` on Blank (lines 63-71). -/
def RatchetTreeNode.get_public_key : RatchetTreeNode → Option DhPublicKey
  | .Blank => none
  | .Filled pk _ _ => some pk

/-- Returns the node's private key if present (lines 138-147). -/
def RatchetTreeNode.get_private_key : RatchetTreeNode → Option DhPrivateKey
  | .Blank => none
  | .Filled _ sk _ => sk

/-- Returns the node's secret if present (lines 126-135). -/
def RatchetTreeNode.get_secret : RatchetTreeNode → Option (List Nat)
  | .Blank => none
  | .Filled _ _ sec => sec

/-- Returns the (possibly freshly zero-allocated) secret buffer together with
the node after the allocation (lines 108-123). -/
def RatchetTreeNode.get_mut_node_secret :
    RatchetTreeNode → Nat → Option (List Nat) × RatchetTreeNode
  | .Blank, _ => (none, .Blank)
  | .Filled pk sk (some sec), _ => (some sec, .Filled pk sk (some sec))
  | .Filled pk sk none, secret_len =>
    (some (List.replicate secret_len 0),
      .Filled pk sk (some (List.replicate secret_len 0)))

/-! ## RatchetTree (src/ratchet_tree.rs lines 150-494) -/

/-- A left-balanced binary tree of `RatchetTreeNode`s. -/
structure RatchetTree where
  nodes : List RatchetTreeNode
deriving DecidableEq

/-- Returns a new empty tree (lines 159-163). -/
def RatchetTree.new : RatchetTree := ⟨[]⟩

/-- Returns the number of nodes in the tree (lines 166-168). -/
def RatchetTree.size (t : RatchetTree) : Nat := t.nodes.length

/-- Returns the node at the given index (lines 171-173). -/
def RatchetTree.get (t : RatchetTree) (idx : Nat) : Option RatchetTreeNode :=
  t.nodes.get? idx

/-- Returns the root node (lines 176-183).  Note that the source passes the
node count `self.size()` to `root_idx`, which expects a leaf count. -/
def RatchetTree.get_root_node (t : RatchetTree) : Option RatchetTreeNode :=
  if t.size = 0 then none
  else t.get (root_idx t.size)

/-- Appends a leaf: push the node alone onto an empty tree, otherwise push a
Blank and then the node (lines 204-212). -/
def RatchetTree.add_leaf_node (t : RatchetTree) (node : RatchetTreeNode) : RatchetTree :=
  if t.nodes.isEmpty then ⟨t.nodes ++ [node]⟩
  else ⟨t.nodes ++ [RatchetTreeNode.Blank, node]⟩

/-- Truncation (lines 235-254).  The source iterates the leaves in reverse
order and overwrites `last_nonblank_leaf` on every filled leaf without
breaking, so the surviving value is the lowest-index filled leaf. -/
def RatchetTree.truncate_to_last_nonblank (t : RatchetTree) : RatchetTree :=
  let num_leaves := num_leaves_in_tree t.size
  let last_nonblank_leaf := ((tree_leaves num_leaves).reverse).foldl
    (fun acc leaf_idx =>
      if (t.nodes.getD leaf_idx RatchetTreeNode.Blank).is_filled then some leaf_idx
      else acc) none
  match last_nonblank_leaf with
  | none => ⟨[]⟩
  | some i => ⟨t.nodes.take (i + 1)⟩

/-- The recursion of `resolution` (lines 259-284), with explicit fuel; the
fuel is the node level plus one, which the level-decreasing recursion never
exhausts on a well-formed tree. -/
def resolutionAux (nodes : List RatchetTreeNode) (num_leaves : Nat) :
    Nat → Nat → List Nat
  | 0, _ => []
  | fuel + 1, i =>
    match nodes.getD i RatchetTreeNode.Blank with
    | RatchetTreeNode.Blank =>
      if node_level i = 0 then []
      else
        resolutionAux nodes num_leaves fuel (node_left_child i) ++
        resolutionAux nodes num_leaves fuel (node_right_child i num_leaves)
    | RatchetTreeNode.Filled _ _ _ => [i]

/-- Returns the resolution of a node: the ordered minimal set of non-blank
nodes covering all non-blank descendants of the node (lines 259-284). -/
def RatchetTree.resolution (t : RatchetTree) (idx : Nat) : List Nat :=
  resolutionAux t.nodes (num_leaves_in_tree t.size) (node_level idx + 1) idx

/-! ## Direct path messages (src/handshake.rs lines 20-37) -/

/-- A node's new public key plus the node's secret encrypted for everyone in
that node's resolution. -/
structure DirectPathNodeMessage where
  public_key : DhPublicKey
  node_secrets : List EciesCiphertext
deriving DecidableEq

/-- A direct path of node messages. -/
structure DirectPathMessage where
  node_messages : List DirectPathNodeMessage
deriving DecidableEq

/-- The loop of `encrypt_direct_path_secrets` (src/ratchet_tree.rs lines
319-351): for each node on the direct path, encrypt the secret of its parent
to the resolution of its sibling. -/
def encryptPathLoop (cs : CipherSuite) (t : RatchetTree) (num_leaves : Nat)
    (csprng : Nat) : List Nat → Except Error (List DirectPathNodeMessage)
  | [] => Except.ok []
  | path_node_idx :: rest =>
    let parent_path_node_idx := node_parent path_node_idx num_leaves
    match t.get parent_path_node_idx with
    | none => Except.error (Error.Panicked "called unwrap on a None value")
    | some parent_path_node =>
      match parent_path_node.get_public_key with
      | none => Except.error (Error.TreeError "Non-blank node has a blank parent")
      | some parent_public_key =>
        match parent_path_node.get_secret with
        | none => Except.error (Error.TreeError "Node does not know the secret of its parent")
        | some parent_secret => do
          let copath_node_idx := node_sibling path_node_idx num_leaves
          let node_secrets ← (t.resolution copath_node_idx).mapM (fun res_idx =>
            match (t.nodes.getD res_idx RatchetTreeNode.Blank).get_public_key with
            | none => Except.error (Error.Panicked "called unwrap on a None value")
            | some others_public_key =>
              Except.ok (ecies_encrypt cs others_public_key parent_secret csprng))
          let rest_messages ← encryptPathLoop cs t num_leaves csprng rest
          Except.ok ({ public_key := parent_public_key,
                       node_secrets := node_secrets } :: rest_messages)

/-- `encrypt_direct_path_secrets` (src/ratchet_tree.rs lines 292-356). -/
def RatchetTree.encrypt_direct_path_secrets (t : RatchetTree) (cs : CipherSuite)
    (my_leaf_idx : Nat) (csprng : Nat) : Except Error DirectPathMessage :=
  if my_leaf_idx % 2 ≠ 0 then
    Except.error (Error.TreeError "Cannot encrypt direct paths of non-leaf nodes")
  else
    match t.get my_leaf_idx with
    | none => Except.error (Error.TreeError "My tree index is not in the tree")
    | some my_node =>
      match my_node.get_public_key with
      | none => Except.error (Error.TreeError "My tree index is blank")
      | some my_public_key => do
        let rest ← encryptPathLoop cs t (num_leaves_in_tree t.size) csprng
          (node_direct_path my_leaf_idx (num_leaves_in_tree t.size))
        Except.ok { node_messages :=
          { public_key := my_public_key, node_secrets := [] } :: rest }

/-- The search loop of `decrypt_direct_path_message` (lines 427-444): comb
the resolution for a node with a known private key that is our ancestor. -/
def decryptResLoop (cs : CipherSuite) (t : RatchetTree) (num_leaves : Nat)
    (node_msg : DirectPathNodeMessage) (my_tree_idx common_ancestor_idx : Nat) :
    Nat → List Nat → Except Error (List Nat × Nat)
  | _, [] =>
    Except.error (Error.TreeError "Cannot find node in resolution with known private key")
  | pos_in_res, res_node_idx :: rest =>
    match t.get res_node_idx with
    | none => Except.error (Error.Panicked "resolution out of bounds")
    | some res_node =>
      if res_node.get_private_key.isSome &&
          is_ancestor res_node_idx my_tree_idx num_leaves then
        match res_node.get_private_key with
        | none => Except.error (Error.Panicked "called unwrap on a None value")
        | some decryption_key =>
          match node_msg.node_secrets.get? pos_in_res with
          | none => Except.error (Error.TreeError "Malformed DirectPathMessage")
          | some ciphertext_for_me => do
            let pt ← ecies_decrypt cs decryption_key ciphertext_for_me
            Except.ok (pt, common_ancestor_idx)
      else
        decryptResLoop cs t num_leaves node_msg my_tree_idx common_ancestor_idx
          (pos_in_res + 1) rest

/-- `decrypt_direct_path_message` (src/ratchet_tree.rs lines 369-447). -/
def RatchetTree.decrypt_direct_path_message (t : RatchetTree) (cs : CipherSuite)
    (direct_path_msg : DirectPathMessage) (sender_tree_idx my_tree_idx : Nat) :
    Except Error (List Nat × Nat) :=
  let num_leaves := num_leaves_in_tree t.size
  if sender_tree_idx ≥ t.size ∨ my_tree_idx ≥ t.size then
    Except.error (Error.TreeError "Input index out of range")
  else if is_ancestor sender_tree_idx my_tree_idx num_leaves ||
      is_ancestor my_tree_idx sender_tree_idx num_leaves then
    Except.error (Error.TreeError "Cannot decrypt messages from ancestors or descendants")
  else
    let common_ancestor_idx := common_ancestor sender_tree_idx my_tree_idx num_leaves
    match (node_extended_direct_path sender_tree_idx num_leaves).enum.find?
        (fun q => q.2 == common_ancestor_idx) with
    | none =>
      Except.error (Error.Panicked "common ancestor somehow did not appear in direct path")
    | some (pos_in_msg_vec, _) =>
      match direct_path_msg.node_messages.get? pos_in_msg_vec with
      | none => Except.error (Error.TreeError "Malformed DirectPathMessage")
      | some node_msg =>
        let left := node_left_child common_ancestor_idx
        let right := node_right_child common_ancestor_idx num_leaves
        let copath_ancestor_idx :=
          if is_ancestor left my_tree_idx num_leaves then left else right
        decryptResLoop cs t num_leaves node_msg my_tree_idx common_ancestor_idx 0
          (t.resolution copath_ancestor_idx)

/-- One node update of `propogate_new_path_secret` (lines 478-481): update
public key, private key, and secret.  The private/secret updates cannot hit
the Blank panic because the public-key update has made the node Filled. -/
def setNodeKeys (node : RatchetTreeNode) (pk : DhPublicKey) (sk : DhPrivateKey)
    (node_secret : List Nat) : RatchetTreeNode :=
  let n1 := node.update_public_key pk
  match n1.update_private_key sk with
  | none => n1
  | some n2 =>
    match n2.update_secret node_secret with
    | none => n2
    | some n3 => n3

/-- The ascent loop of `propogate_new_path_secret` (lines 466-490), folded
over the extended direct path, which is exactly the sequence of nodes the
loop visits before stopping at the root. -/
def propogatePathLoop (cs : CipherSuite) : RatchetTree → List Nat → List Nat → RatchetTree
  | t, _, [] => t
  | t, path_secret, current_node_idx :: rest =>
    let prk := prk_from_bytes cs.hash_alg path_secret
    let node_secret := hkdf_expand_label prk node_label []
    let next_path_secret := hkdf_expand_label prk path_label []
    let key_pair := derive_key_pair cs node_secret
    let t2 : RatchetTree := ⟨t.nodes.set current_node_idx
      (setNodeKeys (t.nodes.getD current_node_idx RatchetTreeNode.Blank)
        key_pair.1 key_pair.2 node_secret)⟩
    propogatePathLoop cs t2 next_path_secret rest

/-- `propogate_new_path_secret` (src/ratchet_tree.rs lines 453-493); in the
symbolic model `derive_key_pair` is total, so the operation never fails and
the `Result` wrapper is dropped. -/
def RatchetTree.propogate_new_path_secret (t : RatchetTree) (cs : CipherSuite)
    (path_secret : List Nat) (start_idx : Nat) : RatchetTree :=
  propogatePathLoop cs t path_secret
    (node_extended_direct_path start_idx (num_leaves_in_tree t.size))

/-! ## Handshake construction (src/handshake.rs) -/

/-- Modelled from the spec: an opaque signature value. -/
structure Signature where
  sig_bytes : List Nat
deriving DecidableEq

/-- Modelled from the spec: `cs.sig_impl.sign(key, msg)`, symbolic. -/
def sig_sign (cs : CipherSuite) (identity_key : List Nat) (msg : List Nat) : Signature :=
  ⟨cs.suite_id :: (identity_key ++ msg)⟩

/-- `Signature::to_bytes`. -/
def Signature.to_bytes (s : Signature) : List Nat := s.sig_bytes

/-- The part of `EpochSecrets` read by handshake construction. -/
structure EpochSecrets where
  confirmation_key : List Nat
deriving DecidableEq

/-- Modelled from the spec: the subset of `GroupState` that
`Handshake::from_group_op` reads. -/
structure GroupState where
  epoch : Nat
  roster_index : Nat
  transcript_hash : List Nat
  identity_key : List Nat
  epoch_secrets : EpochSecrets
deriving DecidableEq

/-- Modelled from the spec: the HMAC primitive, symbolic. -/
def hmac_bytes (hash_alg : Nat) (key : List Nat) (data : List Nat) : List Nat :=
  hash_alg :: (key ++ data)

/-- Modelled from the spec: `ring::hmac::SigningKey`. -/
structure HmacSigningKey where
  hash_alg : Nat
  key : List Nat
deriving DecidableEq

/-- Modelled from the spec: the streaming context of `ring::hmac`. -/
structure HmacSigningContext where
  hash_alg : Nat
  key : List Nat
  data : List Nat
deriving DecidableEq

/-- `ring::hmac::SigningContext::with_key`. -/
def HmacSigningContext.with_key (k : HmacSigningKey) : HmacSigningContext :=
  ⟨k.hash_alg, k.key, []⟩

/-- `ring::hmac::SigningContext::update` appends to the streamed data. -/
def HmacSigningContext.update (ctx : HmacSigningContext) (bytes : List Nat) :
    HmacSigningContext :=
  { ctx with data := ctx.data ++ bytes }

/-- `ring::hmac::SigningContext::sign` MACs everything streamed so far. -/
def HmacSigningContext.sign (ctx : HmacSigningContext) : List Nat :=
  hmac_bytes ctx.hash_alg ctx.key ctx.data

/-- Modelled from the spec: the opaque identity `Credential`. -/
structure Credential where
  cred_bytes : List Nat
deriving DecidableEq

/-- `UserInitKey` (src/handshake.rs lines 43-75); the opaque cipher-suite
references are carried by their u16 wire identifiers. -/
structure UserInitKey where
  user_init_key_id : List Nat
  supported_versions : List Nat
  cipher_suites : List Nat
  init_keys : List DhPublicKey
  credential : Credential
  signature : Signature
deriving DecidableEq

/-- `GroupInit` (line 79): currently carries nothing. -/
structure GroupInit where
deriving DecidableEq

/-- `GroupAdd` (lines 83-97). -/
structure GroupAdd where
  index : Nat
  init_key : UserInitKey
  welcome_info_hash : List Nat
deriving DecidableEq

/-- `GroupUpdate` (lines 101-103). -/
structure GroupUpdate where
  path : DirectPathMessage
deriving DecidableEq

/-- `GroupRemove` (lines 107-113). -/
structure GroupRemove where
  removed : Nat
  path : DirectPathMessage
deriving DecidableEq

/-- `GroupOperation` (lines 116-123), tagged Init=0, Add=1, Update=2,
Remove=3 on the wire. -/
inductive GroupOperation where
  | Init (op : GroupInit)
  | Add (op : GroupAdd)
  | Update (op : GroupUpdate)
  | Remove (op : GroupRemove)
deriving DecidableEq

/-- `Handshake` (lines 128-145). -/
structure Handshake where
  prior_epoch : Nat
  operation : GroupOperation
  signer_index : Nat
  signature : Signature
  confirmation : List Nat
deriving DecidableEq

/-- `Handshake::from_group_op` (src/handshake.rs lines 149-177). -/
def Handshake.from_group_op (cs : CipherSuite) (state : GroupState)
    (op : GroupOperation) : Handshake :=
  let signature := sig_sign cs state.identity_key state.transcript_hash
  let confirmation :=
    let confirmation_key :=
      HmacSigningKey.mk cs.hash_alg state.epoch_secrets.confirmation_key
    let ctx := HmacSigningContext.with_key confirmation_key
    let ctx := ctx.update state.transcript_hash
    let ctx := ctx.update signature.to_bytes
    ctx.sign
  { prior_epoch := state.epoch
    operation := op
    signer_index := state.roster_index
    signature := signature
    confirmation := confirmation }


/-! ## Auxiliary definitions for the claims -/

/-- The tree-shape operations quantified over by the left-balance invariant:
`add_leaf_node` with an arbitrary node, or `truncate_to_last_nonblank`. -/
inductive TreeOp where
  | add (node : RatchetTreeNode)
  | truncate

/-- Apply one `TreeOp` to a tree. -/
def applyTreeOp (t : RatchetTree) : TreeOp → RatchetTree
  | TreeOp.add node => t.add_leaf_node node
  | TreeOp.truncate => t.truncate_to_last_nonblank

/-- A node holding a public key, the matching private key, and a secret:
the state every node is in after path-secret propagation reaches it. -/
def RatchetTreeNode.well_keyed : RatchetTreeNode → Bool
  | RatchetTreeNode.Filled pk (some sk) (some _) => pk = dh_public_of sk
  | _ => false

/-- The public key stored at index `x`, with a placeholder default when the
node is blank (used only under a `well_keyed` hypothesis). -/
def node_pk (t : RatchetTree) (x : Nat) : DhPublicKey :=
  ((t.nodes.getD x RatchetTreeNode.Blank).get_public_key).getD ⟨[]⟩

/-- The private key stored at index `x`, with a placeholder default. -/
def node_sk (t : RatchetTree) (x : Nat) : DhPrivateKey :=
  ((t.nodes.getD x RatchetTreeNode.Blank).get_private_key).getD ⟨[]⟩

/-- The secret stored at index `x`, with a placeholder default. -/
def node_secret_of (t : RatchetTree) (x : Nat) : List Nat :=
  ((t.nodes.getD x RatchetTreeNode.Blank).get_secret).getD []

/-- The node secret derived from a path secret in `propogate_new_path_secret`
(src/ratchet_tree.rs lines 466-470). -/
def pathNodeSecret (cs : CipherSuite) (ps : List Nat) : List Nat :=
  hkdf_expand_label (prk_from_bytes cs.hash_alg ps) node_label []

/-- The next path secret derived from a path secret (lines 471-473). -/
def pathNextSecret (cs : CipherSuite) (ps : List Nat) : List Nat :=
  hkdf_expand_label (prk_from_bytes cs.hash_alg ps) path_label []

/-- Running `propogate_new_path_secret` once from every leaf of an `L`-leaf
tree, feeding leaf `l` the fresh path secret `ps l`: the tree state assumed
by the direct-path round-trip claim. -/
def propagateAll (cs : CipherSuite) (ps : Nat → List Nat) (t0 : RatchetTree) (L : Nat) :
    RatchetTree :=
  (List.range L).foldl (fun tr l => tr.propogate_new_path_secret cs (ps l) (2 * l)) t0

/-- The `DirectPathNodeMessage` that the encryption loop produces for the
direct-path node `p` of a fully well-keyed tree: the parent's stored public
key, and the parent's stored secret encrypted to the sibling's stored public
key (the sibling being its own resolution). -/
def pathMsgOf (cs : CipherSuite) (t : RatchetTree) (L rng : Nat) (p : Nat) :
    DirectPathNodeMessage :=
  { public_key := node_pk t (node_parent p L),
    node_secrets := [ecies_encrypt cs (node_pk t (node_sibling p L))
      (node_secret_of t (node_parent p L)) rng] }

/-- A concrete cipher suite used by the witnesses. -/
def exampleCS : CipherSuite := ⟨0, 0⟩

/-- A concrete filled node with no private material, used by the witnesses. -/
def exampleFilled (n : Nat) : RatchetTreeNode :=
  RatchetTreeNode.Filled ⟨[n]⟩ none none

/-! ## Wire codec

Modelled from the spec: the serde/TLS codec implementation is not part of
src; the container layouts and bound widths are taken from the serde
attributes in src (`__bound_u8`/`__bound_u16`/`__bound_u32`, `__enum_u8`,
`#[serde(skip)]`) and the bounds table of spec section 4.E.  Bytes are
naturals; fixed-width integers are big-endian; a variable-length field is
prefixed by its byte length in the declared width.  The wire bounds of the
opaque leaf types (public keys, signatures, credentials, ECIES ciphertexts)
are owned by external components and are modelled as u16 length-prefixed
opaque byte strings.  A serializer returns `none` when a value exceeds its
declared width, so the serializable values are exactly those on which the
serializer succeeds.
-/

/-- Modelled from the spec: the big-endian base-256 digits of `n`, `w` bytes
wide. -/
def beBytes : Nat → Nat → List Nat
  | 0, _ => []
  | w + 1, n => beBytes w (n / 256) ++ [n % 256]

/-- Modelled from the spec: the value of a big-endian digit string. -/
def beVal (bs : List Nat) : Nat := bs.foldl (fun acc b => acc * 256 + b) 0

/-- Modelled from the spec: read a `w`-byte big-endian integer. -/
def takeBE (w : Nat) (bs : List Nat) : Option (Nat × List Nat) :=
  if w ≤ bs.length then some (beVal (bs.take w), bs.drop w) else none

/-- Modelled from the spec: a `w`-wide fixed integer field. -/
def serU (w n : Nat) : Option (List Nat) :=
  if n < 256 ^ w then some (beBytes w n) else none

/-- Modelled from the spec: a length-prefixed opaque byte string with a
`w`-byte length counter. -/
def serBytes (w : Nat) (payload : List Nat) : Option (List Nat) :=
  if payload.length < 256 ^ w then some (beBytes w payload.length ++ payload) else none

/-- Modelled from the spec: parse a length-prefixed opaque byte string. -/
def deBytes (w : Nat) (bs : List Nat) : Option (List Nat × List Nat) :=
  match takeBE w bs with
  | none => none
  | some (len, rest) =>
    if len ≤ rest.length then some (rest.take len, rest.drop len) else none

/-- Modelled from the spec: parse elements off a byte string until it is
exhausted; each element must consume at least one byte (every encoding in
this schema does), which the fuel argument turns into structural recursion. -/
def parseAll {α : Type} (de : List Nat → Option (α × List Nat)) :
    Nat → List Nat → Option (List α)
  | _, [] => some []
  | 0, _ :: _ => none
  | fuel + 1, b :: bs =>
    match de (b :: bs) with
    | none => none
    | some (x, rest) =>
      if rest.length ≤ bs.length then
        match parseAll de fuel rest with
        | none => none
        | some xs => some (x :: xs)
      else none

/-- Modelled from the spec: a vector field with a `w`-byte length counter
that counts bytes, not elements. -/
def serVec {α : Type} (w : Nat) (ser : α → Option (List Nat)) (xs : List α) :
    Option (List Nat) :=
  match xs.mapM ser with
  | none => none
  | some chunks =>
    if (chunks.join).length < 256 ^ w then
      some (beBytes w (chunks.join).length ++ chunks.join)
    else none

/-- Modelled from the spec: parse a byte-counted vector field. -/
def deVec {α : Type} (w : Nat) (de : List Nat → Option (α × List Nat))
    (bs : List Nat) : Option (List α × List Nat) :=
  match takeBE w bs with
  | none => none
  | some (len, rest) =>
    if len ≤ rest.length then
      match parseAll de len (rest.take len) with
      | none => none
      | some xs => some (xs, rest.drop len)
    else none

/-- Modelled from the spec: a DH public key on the wire (u16 opaque). -/
def serPk (pk : DhPublicKey) : Option (List Nat) := serBytes 2 pk.key_bytes

/-- Modelled from the spec: parse a DH public key. -/
def dePk (bs : List Nat) : Option (DhPublicKey × List Nat) :=
  match deBytes 2 bs with
  | none => none
  | some (payload, rest) => some (⟨payload⟩, rest)

/-- Modelled from the spec: a signature on the wire (u16 opaque). -/
def serSig (s : Signature) : Option (List Nat) := serBytes 2 s.sig_bytes

/-- Modelled from the spec: parse a signature. -/
def deSig (bs : List Nat) : Option (Signature × List Nat) :=
  match deBytes 2 bs with
  | none => none
  | some (payload, rest) => some (⟨payload⟩, rest)

/-- Modelled from the spec: a credential on the wire (u16 opaque). -/
def serCred (c : Credential) : Option (List Nat) := serBytes 2 c.cred_bytes

/-- Modelled from the spec: parse a credential. -/
def deCred (bs : List Nat) : Option (Credential × List Nat) :=
  match deBytes 2 bs with
  | none => none
  | some (payload, rest) => some (⟨payload⟩, rest)

/-- Modelled from the spec: an ECIES ciphertext is self-describing — the
ephemeral public key followed by the sealed payload (u16 opaque). -/
def serEcies (ct : EciesCiphertext) : Option (List Nat) :=
  match serPk ct.public_key with
  | none => none
  | some b1 =>
    match serBytes 2 ct.payload with
    | none => none
    | some b2 => some (b1 ++ b2)

/-- Modelled from the spec: parse an ECIES ciphertext. -/
def deEcies (bs : List Nat) : Option (EciesCiphertext × List Nat) :=
  match dePk bs with
  | none => none
  | some (pk, r1) =>
    match deBytes 2 r1 with
    | none => none
    | some (payload, r2) => some (⟨pk, payload⟩, r2)

/-- `DirectPathNodeMessage` on the wire (src/handshake.rs lines 22-28):
public key, then `node_secrets` with bound u16. -/
def serDpnm (m : DirectPathNodeMessage) : Option (List Nat) :=
  match serPk m.public_key with
  | none => none
  | some b1 =>
    match serVec 2 serEcies m.node_secrets with
    | none => none
    | some b2 => some (b1 ++ b2)

/-- Parse a `DirectPathNodeMessage`. -/
def deDpnm (bs : List Nat) : Option (DirectPathNodeMessage × List Nat) :=
  match dePk bs with
  | none => none
  | some (pk, r1) =>
    match deVec 2 deEcies r1 with
    | none => none
    | some (secrets, r2) => some (⟨pk, secrets⟩, r2)

/-- `DirectPathMessage` on the wire (src/handshake.rs lines 32-37):
`node_messages` with bound u16. -/
def serDpm (m : DirectPathMessage) : Option (List Nat) :=
  serVec 2 serDpnm m.node_messages

/-- Parse a `DirectPathMessage`. -/
def deDpm (bs : List Nat) : Option (DirectPathMessage × List Nat) :=
  match deVec 2 deDpnm bs with
  | none => none
  | some (msgs, rest) => some (⟨msgs⟩, rest)

/-- `UserInitKey` on the wire (src/handshake.rs lines 43-75): id (bound u8),
supported versions (u8 entries, bound u8), cipher suites (u16 identifiers,
bound u8), init keys (bound u16), credential, signature. -/
def serUik (u : UserInitKey) : Option (List Nat) :=
  match serBytes 1 u.user_init_key_id with
  | none => none
  | some b1 =>
    match serBytes 1 u.supported_versions with
    | none => none
    | some b2 =>
      match serVec 1 (serU 2) u.cipher_suites with
      | none => none
      | some b3 =>
        match serVec 2 serPk u.init_keys with
        | none => none
        | some b4 =>
          match serCred u.credential with
          | none => none
          | some b5 =>
            match serSig u.signature with
            | none => none
            | some b6 => some (b1 ++ b2 ++ b3 ++ b4 ++ b5 ++ b6)

/-- Parse a `UserInitKey`. -/
def deUik (bs : List Nat) : Option (UserInitKey × List Nat) :=
  match deBytes 1 bs with
  | none => none
  | some (f1, r1) =>
    match deBytes 1 r1 with
    | none => none
    | some (f2, r2) =>
      match deVec 1 (takeBE 2) r2 with
      | none => none
      | some (f3, r3) =>
        match deVec 2 dePk r3 with
        | none => none
        | some (f4, r4) =>
          match deCred r4 with
          | none => none
          | some (f5, r5) =>
            match deSig r5 with
            | none => none
            | some (f6, r6) => some (⟨f1, f2, f3, f4, f5, f6⟩, r6)

/-- `GroupOperation` on the wire (src/handshake.rs lines 115-122): u8 tag
Init=0, Add=1, Update=2, Remove=3, then the variant payload; `GroupAdd` is
index (u32), init key, welcome-info hash (bound u8); `GroupRemove` is the
removed index (u32) and the path. -/
def serOp : GroupOperation → Option (List Nat)
  | GroupOperation.Init _ => some [0]
  | GroupOperation.Add a =>
    match serU 4 a.index with
    | none => none
    | some b1 =>
      match serUik a.init_key with
      | none => none
      | some b2 =>
        match serBytes 1 a.welcome_info_hash with
        | none => none
        | some b3 => some (1 :: (b1 ++ b2 ++ b3))
  | GroupOperation.Update up =>
    match serDpm up.path with
    | none => none
    | some b1 => some (2 :: b1)
  | GroupOperation.Remove rm =>
    match serU 4 rm.removed with
    | none => none
    | some b1 =>
      match serDpm rm.path with
      | none => none
      | some b2 => some (3 :: (b1 ++ b2))

/-- Parse a `GroupOperation`. -/
def deOp (bs : List Nat) : Option (GroupOperation × List Nat) :=
  match bs with
  | [] => none
  | t :: rest =>
    if t = 0 then some (GroupOperation.Init ⟨⟩, rest)
    else if t = 1 then
      match takeBE 4 rest with
      | none => none
      | some (idx, r1) =>
        match deUik r1 with
        | none => none
        | some (uik, r2) =>
          match deBytes 1 r2 with
          | none => none
          | some (wih, r3) => some (GroupOperation.Add ⟨idx, uik, wih⟩, r3)
    else if t = 2 then
      match deDpm rest with
      | none => none
      | some (p, r1) => some (GroupOperation.Update ⟨p⟩, r1)
    else if t = 3 then
      match takeBE 4 rest with
      | none => none
      | some (rm, r1) =>
        match deDpm r1 with
        | none => none
        | some (p, r2) => some (GroupOperation.Remove ⟨rm, p⟩, r2)
    else none

/-- `Handshake` on the wire (src/handshake.rs lines 126-144): prior epoch
(u32), operation, signer index (u32), signature, confirmation (bound u8). -/
def serHandshake (h : Handshake) : Option (List Nat) :=
  match serU 4 h.prior_epoch with
  | none => none
  | some b1 =>
    match serOp h.operation with
    | none => none
    | some b2 =>
      match serU 4 h.signer_index with
      | none => none
      | some b3 =>
        match serSig h.signature with
        | none => none
        | some b4 =>
          match serBytes 1 h.confirmation with
          | none => none
          | some b5 => some (b1 ++ b2 ++ b3 ++ b4 ++ b5)

/-- Parse a `Handshake`. -/
def deHandshake (bs : List Nat) : Option (Handshake × List Nat) :=
  match takeBE 4 bs with
  | none => none
  | some (f1, r1) =>
    match deOp r1 with
    | none => none
    | some (f2, r2) =>
      match takeBE 4 r2 with
      | none => none
      | some (f3, r3) =>
        match deSig r3 with
        | none => none
        | some (f4, r4) =>
          match deBytes 1 r4 with
          | none => none
          | some (f5, r5) => some (⟨f1, f2, f3, f4, f5⟩, r5)

/-- `RatchetTreeNode` on the wire (src/ratchet_tree.rs lines 20-31): u8 tag
Blank=0, Filled=1; on Filled only the public key follows — the private key
and the secret carry `#[serde(skip)]` and are never serialized. -/
def serNode : RatchetTreeNode → Option (List Nat)
  | RatchetTreeNode.Blank => some [0]
  | RatchetTreeNode.Filled pk _ _ =>
    match serPk pk with
    | none => none
    | some b => some (1 :: b)

/-- Parse a `RatchetTreeNode`; the skipped fields default to `none`. -/
def deNode (bs : List Nat) : Option (RatchetTreeNode × List Nat) :=
  match bs with
  | [] => none
  | t :: rest =>
    if t = 0 then some (RatchetTreeNode.Blank, rest)
    else if t = 1 then
      match dePk rest with
      | none => none
      | some (pk, r1) => some (RatchetTreeNode.Filled pk none none, r1)
    else none

/-- Drop the never-serialized fields of a node: what any node looks like
after a serialization round trip. -/
def RatchetTreeNode.scrub : RatchetTreeNode → RatchetTreeNode
  | RatchetTreeNode.Blank => RatchetTreeNode.Blank
  | RatchetTreeNode.Filled pk _ _ => RatchetTreeNode.Filled pk none none

/-- `RatchetTree` on the wire (src/ratchet_tree.rs lines 13-16): the node
vector with bound u32. -/
def serTree (t : RatchetTree) : Option (List Nat) := serVec 4 serNode t.nodes

/-- Parse a `RatchetTree`. -/
def deTree (bs : List Nat) : Option (RatchetTree × List Nat) :=
  match deVec 4 deNode bs with
  | none => none
  | some (ns, rest) => some (⟨ns⟩, rest)

/-! ## Proof development: arithmetic of levels and dyadic ranges -/


theorem levelAux_congr (f g x : Nat) (hf : x ≤ f) (hg : x ≤ g) :
    levelAux f x = levelAux g x := by
  induction f generalizing g x with
  | zero =>
    interval_cases x
    cases g <;> simp [levelAux]
  | succ f ih =>
    cases g with
    | zero =>
      interval_cases x
      simp [levelAux]
    | succ g =>
      simp only [levelAux]
      by_cases hx : x % 2 = 1
      · have hx2 : x / 2 ≤ f := by omega
        have hx2g : x / 2 ≤ g := by omega
        rw [if_pos hx, if_pos hx, ih g (x / 2) hx2 hx2g]
      · rw [if_neg hx, if_neg hx]

/-- Even numbers have level 0. -/
theorem node_level_of_even (x : Nat) (h : x % 2 = 0) : node_level x = 0 := by
  unfold node_level
  cases x with
  | zero => simp [levelAux]
  | succ n => simp only [levelAux]; rw [if_neg (by omega)]

/-- Odd numbers step down: `level x = level (x/2) + 1`. -/
theorem node_level_of_odd (x : Nat) (h : x % 2 = 1) :
    node_level x = node_level (x / 2) + 1 := by
  unfold node_level
  have hx : 1 ≤ x := by omega
  cases x with
  | zero => omega
  | succ n =>
    simp only [levelAux]
    rw [if_pos h]
    have h1 : (n + 1) / 2 ≤ n := by omega
    rw [levelAux_congr n ((n + 1) / 2) ((n + 1) / 2) h1 le_rfl]

/-- The level determines the low bits: `x % 2^(k+1) = 2^k - 1` for `k = node_level x`. -/
theorem mod_pow_node_level (x : Nat) :
    x % 2 ^ (node_level x + 1) = 2 ^ (node_level x) - 1 := by
  induction x using Nat.strong_induction_on with
  | _ x ih =>
    by_cases h : x % 2 = 1
    · rw [node_level_of_odd x h]
      have hx : 0 < x := by omega
      have ihx := ih (x / 2) (by omega)
      set k := node_level (x / 2) with hk
      have hs : x % 2 ^ (k + 1 + 1) = x % 2 + 2 * (x / 2 % 2 ^ (k + 1)) := by
        rw [show (2 : Nat) ^ (k + 1 + 1) = 2 * 2 ^ (k + 1) by ring]
        exact Nat.mod_mul
      have hp : (2 : Nat) ^ (k + 1 + 1) = 2 * 2 ^ (k + 1) := by ring
      have h1 : 1 ≤ 2 ^ (k + 1) := Nat.one_le_two_pow
      have h2 : 1 ≤ 2 ^ k := Nat.one_le_two_pow
      have hps : (2 : Nat) ^ (k + 1) = 2 * 2 ^ k := by ring
      rw [hs, ihx, h]
      omega
    · rw [node_level_of_even x (by omega)]
      simp only [pow_one, pow_zero]
      omega

/-- Low bits determine the level. -/
theorem node_level_eq_of_mod (ℓ x : Nat) (h : x % 2 ^ (ℓ + 1) = 2 ^ ℓ - 1) :
    node_level x = ℓ := by
  induction ℓ generalizing x with
  | zero =>
    simp only [pow_one, pow_zero] at h
    exact node_level_of_even x (by omega)
  | succ k ih =>
    have h1 : 1 ≤ 2 ^ (k + 1) := Nat.one_le_two_pow
    have hps : (2 : Nat) ^ (k + 1) = 2 * 2 ^ k := by ring
    have h2 : 1 ≤ 2 ^ k := Nat.one_le_two_pow
    have hx2 : x % 2 = 1 := by
      have hd : x % 2 ^ (k + 1 + 1) % 2 = x % 2 := by
        rw [show (2 : Nat) ^ (k + 1 + 1) = 2 * 2 ^ (k + 1) by ring]
        exact Nat.mod_mul_right_mod x 2 (2 ^ (k + 1))
      rw [h] at hd
      omega
    rw [node_level_of_odd x hx2]
    congr 1
    apply ih
    have hd : x % (2 * 2 ^ (k + 1)) / 2 = x / 2 % 2 ^ (k + 1) :=
      Nat.mod_mul_right_div_self x 2 (2 ^ (k + 1))
    rw [show (2 : Nat) * 2 ^ (k + 1) = 2 ^ (k + 1 + 1) by ring, h] at hd
    omega

/-- All-ones low bits characterise strictly higher levels. -/
theorem lt_node_level_iff (ℓ x : Nat) :
    ℓ < node_level x ↔ x % 2 ^ (ℓ + 1) = 2 ^ (ℓ + 1) - 1 := by
  constructor
  · intro h
    induction ℓ generalizing x with
    | zero =>
      have hx : x % 2 = 1 := by
        by_contra hc
        rw [node_level_of_even x (by omega)] at h
        omega
      simpa using hx
    | succ k ih =>
      have hx : x % 2 = 1 := by
        by_contra hc
        rw [node_level_of_even x (by omega)] at h
        omega
      rw [node_level_of_odd x hx] at h
      have ihx := ih (x / 2) (by omega)
      have hs : x % 2 ^ (k + 1 + 1) = x % 2 + 2 * (x / 2 % 2 ^ (k + 1)) := by
        rw [show (2 : Nat) ^ (k + 1 + 1) = 2 * 2 ^ (k + 1) by ring]
        exact Nat.mod_mul
      have h1 : 1 ≤ 2 ^ (k + 1) := Nat.one_le_two_pow
      have hps : (2 : Nat) ^ (k + 1 + 1) = 2 * 2 ^ (k + 1) := by ring
      omega
  · intro h
    by_contra hc
    push_neg at hc
    set k := node_level x with hk
    have hm := mod_pow_node_level x
    have hdvd : (2 : Nat) ^ (k + 1) ∣ 2 ^ (ℓ + 1) := pow_dvd_pow 2 (by omega)
    have hmm : x % 2 ^ (ℓ + 1) % 2 ^ (k + 1) = x % 2 ^ (k + 1) :=
      Nat.mod_mod_of_dvd x hdvd
    rw [h, hm] at hmm
    obtain ⟨m, hm2⟩ : ∃ m, (2 : Nat) ^ (ℓ - k) = m + 1 :=
      ⟨2 ^ (ℓ - k) - 1, by have := Nat.one_le_two_pow (n := ℓ - k); omega⟩
    have hone : (2 : Nat) ^ (ℓ + 1) - 1 = 2 ^ (k + 1) * m + (2 ^ (k + 1) - 1) := by
      have hsplit : (2 : Nat) ^ (ℓ + 1) = 2 ^ (k + 1) * 2 ^ (ℓ - k) := by
        rw [← pow_add]
        congr 1
        omega
      have e1 : 1 ≤ (2 : Nat) ^ (k + 1) := Nat.one_le_two_pow
      have hdist : (2 : Nat) ^ (k + 1) * (m + 1) = 2 ^ (k + 1) * m + 2 ^ (k + 1) := by ring
      rw [hsplit, hm2]
      omega
    rw [hone, Nat.mul_add_mod] at hmm
    have hlt : (2 : Nat) ^ (k + 1) - 1 < 2 ^ (k + 1) := by
      have : 1 ≤ (2 : Nat) ^ (k + 1) := Nat.one_le_two_pow
      omega
    rw [Nat.mod_eq_of_lt hlt, ← hk] at hmm
    have h2 : 1 ≤ (2 : Nat) ^ k := Nat.one_le_two_pow
    have hps : (2 : Nat) ^ (k + 1) = 2 * 2 ^ k := by ring
    omega


theorem log2Aux_congr (f g n : Nat) (hf : n ≤ f) (hg : n ≤ g) :
    log2Aux f n = log2Aux g n := by
  induction f generalizing g n with
  | zero =>
    interval_cases n
    cases g <;> simp [log2Aux]
  | succ f ih =>
    cases g with
    | zero =>
      interval_cases n
      simp [log2Aux]
    | succ g =>
      simp only [log2Aux]
      by_cases hn : n < 2
      · rw [if_pos hn, if_pos hn]
      · rw [if_neg hn, if_neg hn, ih g (n / 2) (by omega) (by omega)]

theorem floor_log2_of_lt_two (n : Nat) (h : n < 2) : floor_log2 n = 0 := by
  unfold floor_log2
  cases n with
  | zero => simp [log2Aux]
  | succ m => simp only [log2Aux]; rw [if_pos h]

theorem floor_log2_of_two_le (n : Nat) (h : 2 ≤ n) :
    floor_log2 n = floor_log2 (n / 2) + 1 := by
  unfold floor_log2
  cases n with
  | zero => omega
  | succ m =>
    simp only [log2Aux]
    rw [if_neg (by omega)]
    rw [log2Aux_congr m ((m + 1) / 2) ((m + 1) / 2) (by omega) le_rfl]

/-- `2 ^ floor_log2 n ≤ n` for positive `n`. -/
theorem two_pow_floor_log2_le (n : Nat) (h : 1 ≤ n) : 2 ^ floor_log2 n ≤ n := by
  induction n using Nat.strong_induction_on with
  | _ n ih =>
    by_cases h2 : n < 2
    · rw [floor_log2_of_lt_two n h2]
      simpa using h
    · rw [floor_log2_of_two_le n (by omega)]
      have ihn := ih (n / 2) (by omega) (by omega)
      rw [pow_succ]
      omega

/-- `n < 2 ^ (floor_log2 n + 1)`. -/
theorem lt_two_pow_floor_log2 (n : Nat) : n < 2 ^ (floor_log2 n + 1) := by
  induction n using Nat.strong_induction_on with
  | _ n ih =>
    by_cases h2 : n < 2
    · rw [floor_log2_of_lt_two n h2]
      simpa using h2
    · rw [floor_log2_of_two_le n (by omega)]
      have ihn := ih (n / 2) (by omega)
      have hp : (2 : Nat) ^ (floor_log2 (n / 2) + 1 + 1) = 2 * 2 ^ (floor_log2 (n / 2) + 1) := by
        ring
      omega

/-- Monotone characterisation: `2 ^ k ≤ n` forces `k ≤ floor_log2 n`. -/
theorem le_floor_log2 (k n : Nat) (h : 2 ^ k ≤ n) : k ≤ floor_log2 n := by
  by_contra hc
  push_neg at hc
  have h1 : (2 : Nat) ^ (floor_log2 n + 1) ≤ 2 ^ k :=
    Nat.pow_le_pow_right (by omega) (by omega)
  have h2 := lt_two_pow_floor_log2 n
  omega


theorem two_pow_node_level_le (x : Nat) : 2 ^ node_level x - 1 ≤ x := by
  have h := mod_pow_node_level x
  have := Nat.mod_le x (2 ^ (node_level x + 1))
  omega

theorem qmul_add_mod (q m y : Nat) : (q * m + y) % m = y % m := by
  rw [Nat.add_comm]
  exact Nat.add_mul_mod_self_right y q m

/-- Euclidean decomposition with the quotient written on the left. -/
theorem div_mul_add_mod (x m : Nat) : x / m * m + x % m = x := by
  have h := Nat.div_add_mod x m
  have hc : m * (x / m) = x / m * m := Nat.mul_comm m (x / m)
  omega

theorem node_level_anc (x ℓ : Nat) : node_level (anc x ℓ) = ℓ := by
  apply node_level_eq_of_mod
  unfold anc
  rw [qmul_add_mod]
  apply Nat.mod_eq_of_lt
  have h1 : 1 ≤ (2 : Nat) ^ ℓ := Nat.one_le_two_pow
  have hps : (2 : Nat) ^ (ℓ + 1) = 2 * 2 ^ ℓ := by ring
  omega

theorem anc_node_level (x : Nat) : anc x (node_level x) = x := by
  unfold anc
  have h := mod_pow_node_level x
  have := div_mul_add_mod x (2 ^ (node_level x + 1))
  omega

theorem subtree_lo_anc (x ℓ : Nat) :
    subtree_lo (anc x ℓ) = x / 2 ^ (ℓ + 1) * 2 ^ (ℓ + 1) := by
  unfold subtree_lo
  rw [node_level_anc]
  unfold anc
  have h1 : 1 ≤ (2 : Nat) ^ ℓ := Nat.one_le_two_pow
  omega

theorem subtree_hi_anc (x ℓ : Nat) :
    subtree_hi (anc x ℓ) = x / 2 ^ (ℓ + 1) * 2 ^ (ℓ + 1) + (2 ^ (ℓ + 1) - 2) := by
  unfold subtree_hi
  rw [node_level_anc]
  unfold anc
  have h1 : 1 ≤ (2 : Nat) ^ ℓ := Nat.one_le_two_pow
  have hps : (2 : Nat) ^ (ℓ + 1) = 2 * 2 ^ ℓ := by ring
  omega

/-- `x` lies in the subtree of its level-`ℓ` ancestor, for `ℓ ≥ level x`. -/
theorem anc_contains (x ℓ : Nat) (h : node_level x ≤ ℓ) :
    subtree_lo (anc x ℓ) ≤ x ∧ x ≤ subtree_hi (anc x ℓ) := by
  rw [subtree_lo_anc, subtree_hi_anc]
  have hdm := div_mul_add_mod x (2 ^ (ℓ + 1))
  have hlt : x % 2 ^ (ℓ + 1) < 2 ^ (ℓ + 1) :=
    Nat.mod_lt x (Nat.pos_pow_of_pos _ (by omega))
  have hne : x % 2 ^ (ℓ + 1) ≠ 2 ^ (ℓ + 1) - 1 := by
    intro hcon
    have := (lt_node_level_iff ℓ x).mpr hcon
    omega
  omega

/-- Uniqueness: a level-`ℓ` node whose range contains `d` is `anc d ℓ`. -/
theorem anc_eq_of_mem_range (a d : Nat) (hlo : subtree_lo a ≤ d) (hhi : d ≤ subtree_hi a) :
    anc d (node_level a) = a := by
  set ℓ := node_level a with hl
  have hmod := mod_pow_node_level a
  rw [← hl] at hmod
  have hdm := div_mul_add_mod a (2 ^ (ℓ + 1))
  have h1 : 1 ≤ (2 : Nat) ^ ℓ := Nat.one_le_two_pow
  have hps : (2 : Nat) ^ (ℓ + 1) = 2 * 2 ^ ℓ := by ring
  have hlo2 : subtree_lo a = a / 2 ^ (ℓ + 1) * 2 ^ (ℓ + 1) := by
    unfold subtree_lo
    rw [← hl]
    omega
  have hhi2 : subtree_hi a = a / 2 ^ (ℓ + 1) * 2 ^ (ℓ + 1) + (2 ^ (ℓ + 1) - 2) := by
    unfold subtree_hi
    rw [← hl]
    omega
  have hdiv : d / 2 ^ (ℓ + 1) = a / 2 ^ (ℓ + 1) := by
    apply Nat.div_eq_of_lt_le
    · omega
    · have : (a / 2 ^ (ℓ + 1) + 1) * 2 ^ (ℓ + 1) =
          a / 2 ^ (ℓ + 1) * 2 ^ (ℓ + 1) + 2 ^ (ℓ + 1) := by ring
      omega
  unfold anc
  rw [hdiv]
  omega

/-- Containment forces a lower level: `d` in the range of `a` has `level d ≤ level a`. -/
theorem node_level_le_of_mem_range (a d : Nat)
    (hlo : subtree_lo a ≤ d) (hhi : d ≤ subtree_hi a) : node_level d ≤ node_level a := by
  set ℓ := node_level a with hl
  by_contra hc
  push_neg at hc
  have hall := (lt_node_level_iff ℓ d).mp hc
  have hmod := mod_pow_node_level a
  rw [← hl] at hmod
  have hdm := div_mul_add_mod a (2 ^ (ℓ + 1))
  have hdmd := div_mul_add_mod d (2 ^ (ℓ + 1))
  have h1 : 1 ≤ (2 : Nat) ^ ℓ := Nat.one_le_two_pow
  have hps : (2 : Nat) ^ (ℓ + 1) = 2 * 2 ^ ℓ := by ring
  have hlo2 : subtree_lo a = a / 2 ^ (ℓ + 1) * 2 ^ (ℓ + 1) := by
    unfold subtree_lo
    rw [← hl]
    omega
  have hhi2 : subtree_hi a = a / 2 ^ (ℓ + 1) * 2 ^ (ℓ + 1) + (2 ^ (ℓ + 1) - 2) := by
    unfold subtree_hi
    rw [← hl]
    omega
  have hdiv : d / 2 ^ (ℓ + 1) = a / 2 ^ (ℓ + 1) := by
    apply Nat.div_eq_of_lt_le
    · omega
    · have : (a / 2 ^ (ℓ + 1) + 1) * 2 ^ (ℓ + 1) =
          a / 2 ^ (ℓ + 1) * 2 ^ (ℓ + 1) + 2 ^ (ℓ + 1) := by ring
      omega
  rw [hdiv] at hdmd
  omega

/-- Climbing twice is climbing once: ancestors of ancestors. -/
theorem anc_anc (x ℓ ℓ2 : Nat) (h : ℓ ≤ ℓ2) : anc (anc x ℓ) ℓ2 = anc x ℓ2 := by
  have hB : 0 < 2 ^ (ℓ + 1) := Nat.pos_pow_of_pos _ (by omega)
  have hr : (2 : Nat) ^ ℓ - 1 < 2 ^ (ℓ + 1) := by
    have h1 : 1 ≤ (2 : Nat) ^ ℓ := Nat.one_le_two_pow
    have hps : (2 : Nat) ^ (ℓ + 1) = 2 * 2 ^ ℓ := by ring
    omega
  have h1 : anc x ℓ / 2 ^ (ℓ + 1) = x / 2 ^ (ℓ + 1) := by
    unfold anc
    rw [Nat.add_comm (x / 2 ^ (ℓ + 1) * 2 ^ (ℓ + 1)) (2 ^ ℓ - 1)]
    rw [Nat.add_mul_div_right _ _ hB, Nat.div_eq_of_lt hr]
    omega
  have hdiv : anc x ℓ / 2 ^ (ℓ2 + 1) = x / 2 ^ (ℓ2 + 1) := by
    have hsplit : (2 : Nat) ^ (ℓ2 + 1) = 2 ^ (ℓ + 1) * 2 ^ (ℓ2 - ℓ) := by
      rw [← pow_add]
      congr 1
      omega
    rw [hsplit, ← Nat.div_div_eq_div_mul, ← Nat.div_div_eq_div_mul, h1]
  show anc x ℓ / 2 ^ (ℓ2 + 1) * 2 ^ (ℓ2 + 1) + (2 ^ ℓ2 - 1) = anc x ℓ2
  rw [hdiv]
  rfl

/-! ### Properties of the extended direct path -/

theorem mem_extended_direct_path (a x L : Nat) :
    a ∈ node_extended_direct_path x L ↔
      node_level x ≤ node_level a ∧ anc x (node_level a) = a ∧ a < 2 * L - 1 := by
  unfold node_extended_direct_path
  rw [List.mem_filterMap]
  constructor
  · rintro ⟨ℓ, hmem, hf⟩
    by_cases hc : node_level x ≤ ℓ ∧ anc x ℓ < 2 * L - 1
    · rw [if_pos hc] at hf
      obtain ⟨hc1, hc2⟩ := hc
      have ha : anc x ℓ = a := Option.some.inj hf
      subst ha
      rw [node_level_anc]
      exact ⟨hc1, rfl, hc2⟩
    · rw [if_neg hc] at hf
      exact absurd hf (by simp)
  · rintro ⟨h1, h2, h3⟩
    refine ⟨node_level a, ?_, ?_⟩
    · rw [List.mem_range]
      have hle : 2 ^ node_level a - 1 ≤ a := two_pow_node_level_le a
      have hpow : 2 ^ node_level a ≤ 2 * L - 1 := by
        have := Nat.one_le_two_pow (n := node_level a)
        omega
      have := le_floor_log2 (node_level a) (2 * L - 1) hpow
      omega
    · rw [if_pos ⟨h1, by rw [h2]; exact h3⟩, h2]

/-- The range-based characterisation of ancestry. -/
theorem is_ancestor_iff (a d L : Nat) :
    is_ancestor a d L = true ↔
      a < 2 * L - 1 ∧ subtree_lo a ≤ d ∧ d ≤ subtree_hi a := by
  unfold is_ancestor
  rw [decide_eq_true_iff, mem_extended_direct_path]
  constructor
  · rintro ⟨h1, h2, h3⟩
    refine ⟨h3, ?_⟩
    have := anc_contains d (node_level a) h1
    rwa [h2] at this
  · rintro ⟨h1, h2, h3⟩
    refine ⟨node_level_le_of_mem_range a d h2 h3, anc_eq_of_mem_range a d h2 h3, h1⟩

/-- Every in-tree node is its own ancestor. -/
theorem is_ancestor_self (x L : Nat) (h : x < 2 * L - 1) : is_ancestor x x L = true := by
  rw [is_ancestor_iff]
  unfold subtree_lo subtree_hi
  have := Nat.one_le_two_pow (n := node_level x)
  exact ⟨h, by omega, by omega⟩

theorem extended_direct_path_pairwise (x L : Nat) :
    (node_extended_direct_path x L).Pairwise (fun a b => node_level a < node_level b) := by
  unfold node_extended_direct_path
  refine List.Pairwise.filterMap _ ?_ (List.pairwise_lt_range _)
  intro ℓ1 ℓ2 hlt a ha b hb
  by_cases h1 : node_level x ≤ ℓ1 ∧ anc x ℓ1 < 2 * L - 1
  · rw [if_pos h1] at ha
    by_cases h2 : node_level x ≤ ℓ2 ∧ anc x ℓ2 < 2 * L - 1
    · rw [if_pos h2] at hb
      simp only [Option.mem_def, Option.some.injEq] at ha hb
      subst ha
      subst hb
      rw [node_level_anc, node_level_anc]
      exact hlt
    · rw [if_neg h2] at hb
      exact absurd hb (by simp)
  · rw [if_neg h1] at ha
    exact absurd ha (by simp)

theorem extended_direct_path_nodup (x L : Nat) :
    (node_extended_direct_path x L).Nodup := by
  have h := extended_direct_path_pairwise x L
  exact h.imp (fun hab => by intro hc; subst hc; omega)

/-- For in-tree `x`, the extended direct path starts at `x` itself. -/
theorem extended_direct_path_head (x L : Nat) (h : x < 2 * L - 1) :
    ∃ t, node_extended_direct_path x L = x :: t := by
  have hmem : x ∈ node_extended_direct_path x L := by
    rw [mem_extended_direct_path]
    exact ⟨le_rfl, anc_node_level x, h⟩
  have hp := extended_direct_path_pairwise x L
  have hmin : ∀ b ∈ node_extended_direct_path x L, node_level x ≤ node_level b := by
    intro b hb
    rw [mem_extended_direct_path] at hb
    exact hb.1
  cases hpath : node_extended_direct_path x L with
  | nil => rw [hpath] at hmem; exact absurd hmem (by simp)
  | cons c t =>
    rw [hpath] at hmem hp hmin
    rcases List.mem_cons.mp hmem with hxc | hxt
    · exact ⟨t, by rw [hxc]⟩
    · exfalso
      have h1 := (List.pairwise_cons.mp hp).1 x hxt
      have h2 := hmin c (by simp)
      omega

/-- The extended path is the direct path with the root appended. -/
theorem extended_direct_path_eq_append (x L : Nat) (hx : x < 2 * L - 1) :
    node_extended_direct_path x L = node_direct_path x L ++ [root_idx L] := by
  unfold node_extended_direct_path node_direct_path
  rw [List.range_succ, List.filterMap_append]
  congr 1
  have hN : 1 ≤ 2 * L - 1 := by omega
  set R := floor_log2 (2 * L - 1) with hR
  have hlvl : node_level x ≤ R := by
    have hle : 2 ^ node_level x - 1 ≤ x := two_pow_node_level_le x
    have hpow : 2 ^ node_level x ≤ 2 * L - 1 := by
      have := Nat.one_le_two_pow (n := node_level x)
      omega
    exact le_floor_log2 _ _ hpow
  have hanc : anc x R = 2 ^ R - 1 := by
    unfold anc
    have hxlt : x < 2 ^ (R + 1) := by
      have h1 := lt_two_pow_floor_log2 (2 * L - 1)
      rw [← hR] at h1
      omega
    rw [Nat.div_eq_of_lt hxlt]
    simp
  have hroot : 2 ^ R - 1 < 2 * L - 1 := by
    have h2 := two_pow_floor_log2_le (2 * L - 1) hN
    rw [← hR] at h2
    have h3 : 1 ≤ (2 : Nat) ^ R := Nat.one_le_two_pow
    omega
  simp only [List.filterMap_cons, List.filterMap_nil]
  rw [if_pos ⟨hlvl, by rw [hanc]; exact hroot⟩]
  rw [hanc]
  rfl

theorem mem_iff_is_ancestor (a d L : Nat) :
    a ∈ node_extended_direct_path d L ↔ is_ancestor a d L = true := by
  simp [is_ancestor]

/-- Filtering a level-sorted list from a pivot position drops the prefix. -/
theorem filter_level_ge_eq_drop (l : List Nat)
    (hp : l.Pairwise (fun a b => node_level a < node_level b)) (j : Nat) (hj : j < l.length) :
    l.filter (fun b => decide (node_level (l.get ⟨j, hj⟩) ≤ node_level b)) = l.drop j := by
  induction l generalizing j with
  | nil => simp at hj
  | cons c t ih =>
    obtain ⟨hhead, htail⟩ := List.pairwise_cons.mp hp
    cases j with
    | zero =>
      simp only [List.get_cons_zero, List.drop_zero, List.filter_cons]
      rw [if_pos (by simp)]
      congr 1
      apply List.filter_eq_self.mpr
      intro b hb
      have := hhead b hb
      simp only [decide_eq_true_eq]
      show node_level c ≤ node_level b
      omega
    | succ j =>
      have hjt : j < t.length := by simpa using hj
      simp only [List.get_cons_succ, List.drop_succ_cons, List.filter_cons]
      have hmem : t.get ⟨j, hjt⟩ ∈ t := List.get_mem t j hjt
      have hlt := hhead _ hmem
      rw [if_neg (by simp only [decide_eq_true_eq]; omega)]
      exact ih htail j hjt

/-- The extended direct path of a path member is the filtered suffix of the
original path. -/
theorem extended_direct_path_mem_eq_filter (a x L : Nat)
    (ha : a ∈ node_extended_direct_path x L) :
    node_extended_direct_path a L =
      (node_extended_direct_path x L).filter
        (fun b => decide (node_level a ≤ node_level b)) := by
  rw [mem_extended_direct_path] at ha
  obtain ⟨hlx, hanc, haN⟩ := ha
  unfold node_extended_direct_path
  rw [List.filter_filterMap]
  apply List.filterMap_congr
  intro ℓ _
  by_cases hla : node_level a ≤ ℓ
  · have hlxℓ : node_level x ≤ ℓ := by omega
    have hax : anc a ℓ = anc x ℓ := by
      conv_lhs => rw [← hanc]
      exact anc_anc x (node_level a) ℓ hla
    by_cases hN : anc x ℓ < 2 * L - 1
    · rw [if_pos ⟨hla, by rw [hax]; exact hN⟩, if_pos ⟨hlxℓ, hN⟩]
      rw [Option.filter_some, if_pos (by rw [node_level_anc]; simpa using hla), hax]
    · rw [if_neg (fun hcon => hN (by rw [← hax]; exact hcon.2)),
        if_neg (fun hcon => hN hcon.2)]
      rfl
  · rw [if_neg (fun hcon => hla hcon.1)]
    by_cases hc : node_level x ≤ ℓ ∧ anc x ℓ < 2 * L - 1
    · rw [if_pos hc]
      rw [Option.filter_some, if_neg (by rw [node_level_anc]; simpa using hla)]
    · rw [if_neg hc]
      rfl

/-- Stepping along the extended direct path is taking the in-tree parent. -/
theorem node_parent_get_extended (x L j : Nat)
    (hj : j + 1 < (node_extended_direct_path x L).length) :
    node_parent ((node_extended_direct_path x L).get ⟨j, by omega⟩) L =
      (node_extended_direct_path x L).get ⟨j + 1, hj⟩ := by
  set l := node_extended_direct_path x L with hl
  have hjl : j < l.length := by omega
  set a := l.get ⟨j, hjl⟩ with hadef
  have hmem : a ∈ l := List.get_mem l j hjl
  have hfilter := extended_direct_path_mem_eq_filter a x L hmem
  have hdrop := filter_level_ge_eq_drop l (by rw [hl]; exact extended_direct_path_pairwise x L) j hjl
  unfold node_parent
  rw [← hl] at hfilter
  rw [hfilter, hdrop]
  have h1 : l.drop j = a :: l.drop (j + 1) :=
    (List.cons_get_drop_succ (l := l) (n := ⟨j, hjl⟩)).symm
  have h2 : l.drop (j + 1) = l.get ⟨j + 1, hj⟩ :: l.drop (j + 2) :=
    (List.cons_get_drop_succ (l := l) (n := ⟨j + 1, hj⟩)).symm
  rw [h1, h2]

theorem odd_of_node_level_pos (x : Nat) (h : 1 ≤ node_level x) : x % 2 = 1 := by
  by_contra hc
  rw [node_level_of_even x (by omega)] at h
  omega

theorem node_left_child_lt (y : Nat) (h : y ≠ 0) : node_left_child y < y := by
  unfold node_left_child
  have h1 : 1 ≤ 2 ^ (node_level y - 1) := Nat.one_le_two_pow
  omega

/-- Structure of the left child of an internal node. -/
theorem left_child_props (x : Nat) (h : 1 ≤ node_level x) :
    node_level (node_left_child x) = node_level x - 1 ∧
    subtree_lo (node_left_child x) = subtree_lo x ∧
    subtree_hi (node_left_child x) = x - 1 := by
  obtain ⟨ℓ, hℓ⟩ : ∃ ℓ, node_level x = ℓ + 1 := ⟨node_level x - 1, by omega⟩
  have hmod := mod_pow_node_level x
  have hdm := div_mul_add_mod x (2 ^ (node_level x + 1))
  rw [hℓ] at hmod hdm
  unfold node_left_child
  rw [hℓ]
  simp only [Nat.add_sub_cancel]
  set q := x / 2 ^ (ℓ + 1 + 1) with hq
  have h1 : 1 ≤ (2 : Nat) ^ ℓ := Nat.one_le_two_pow
  have hpow1 : (2 : Nat) ^ (ℓ + 1) = 2 * 2 ^ ℓ := by ring
  have hlink : 2 * q * 2 ^ (ℓ + 1) = q * 2 ^ (ℓ + 1 + 1) := by ring
  have hlc : x - 2 ^ ℓ = 2 * q * 2 ^ (ℓ + 1) + (2 ^ ℓ - 1) := by omega
  have hlvl : node_level (x - 2 ^ ℓ) = ℓ := by
    apply node_level_eq_of_mod
    rw [hlc, qmul_add_mod]
    exact Nat.mod_eq_of_lt (by omega)
  refine ⟨hlvl, ?_, ?_⟩
  · unfold subtree_lo
    rw [hlvl, hℓ]
    omega
  · unfold subtree_hi
    rw [hlvl]
    omega

/-- Structure of the first right-child candidate of an internal node. -/
theorem right_step_props (x : Nat) (h : 1 ≤ node_level x) :
    node_level (x + 2 ^ (node_level x - 1)) = node_level x - 1 ∧
    subtree_lo (x + 2 ^ (node_level x - 1)) = x + 1 ∧
    subtree_hi (x + 2 ^ (node_level x - 1)) = subtree_hi x := by
  obtain ⟨ℓ, hℓ⟩ : ∃ ℓ, node_level x = ℓ + 1 := ⟨node_level x - 1, by omega⟩
  have hmod := mod_pow_node_level x
  have hdm := div_mul_add_mod x (2 ^ (node_level x + 1))
  rw [hℓ] at hmod hdm
  rw [hℓ]
  simp only [Nat.add_sub_cancel]
  set q := x / 2 ^ (ℓ + 1 + 1) with hq
  have h1 : 1 ≤ (2 : Nat) ^ ℓ := Nat.one_le_two_pow
  have hpow1 : (2 : Nat) ^ (ℓ + 1) = 2 * 2 ^ ℓ := by ring
  have hlink : (2 * q + 1) * 2 ^ (ℓ + 1) = q * 2 ^ (ℓ + 1 + 1) + 2 ^ (ℓ + 1) := by ring
  have hrs : x + 2 ^ ℓ = (2 * q + 1) * 2 ^ (ℓ + 1) + (2 ^ ℓ - 1) := by omega
  have hlvl : node_level (x + 2 ^ ℓ) = ℓ := by
    apply node_level_eq_of_mod
    rw [hrs, qmul_add_mod]
    exact Nat.mod_eq_of_lt (by omega)
  refine ⟨hlvl, ?_, ?_⟩
  · unfold subtree_lo
    rw [hlvl]
    omega
  · unfold subtree_hi
    rw [hlvl, hℓ]
    omega

theorem leftDescendAux_congr (f g y n : Nat) (hf : y < f) (hg : y < g) :
    leftDescendAux f y n = leftDescendAux g y n := by
  induction f generalizing g y with
  | zero => omega
  | succ f ih =>
    cases g with
    | zero => omega
    | succ g =>
      simp only [leftDescendAux]
      by_cases h1 : y < n
      · rw [if_pos h1, if_pos h1]
      · rw [if_neg h1, if_neg h1]
        by_cases h2 : y = 0
        · rw [if_pos h2, if_pos h2]
        · rw [if_neg h2, if_neg h2]
          have := node_left_child_lt y h2
          exact ih g (node_left_child y) (by omega) (by omega)

theorem left_descend_unfold (y n : Nat) :
    left_descend y n =
      if y < n then y else if y = 0 then 0 else left_descend (node_left_child y) n := by
  show leftDescendAux (y + 1) y n = _
  simp only [leftDescendAux]
  by_cases h1 : y < n
  · rw [if_pos h1, if_pos h1]
  · rw [if_neg h1, if_neg h1]
    by_cases h2 : y = 0
    · rw [if_pos h2, if_pos h2]
    · rw [if_neg h2, if_neg h2]
      have := node_left_child_lt y h2
      exact leftDescendAux_congr y (node_left_child y + 1) (node_left_child y) n
        (by omega) (by omega)

/-- Left descent lands on an in-tree node whose range still contains the
target `d`, nests inside the original range, and does not raise the level. -/
theorem left_descend_props (y n d : Nat) (hd : d < n)
    (hlo : subtree_lo y ≤ d) (hhi : d ≤ subtree_hi y) :
    subtree_lo (left_descend y n) ≤ d ∧ d ≤ subtree_hi (left_descend y n) ∧
    left_descend y n < n ∧
    subtree_lo y ≤ subtree_lo (left_descend y n) ∧
    subtree_hi (left_descend y n) ≤ subtree_hi y ∧
    node_level (left_descend y n) ≤ node_level y := by
  induction y using Nat.strong_induction_on with
  | _ y ih =>
    rw [left_descend_unfold]
    by_cases h1 : y < n
    · rw [if_pos h1]
      exact ⟨hlo, hhi, h1, le_rfl, le_rfl, le_rfl⟩
    · rw [if_neg h1]
      by_cases h2 : y = 0
      · exfalso
        subst h2
        have hl0 : node_level 0 = 0 := node_level_of_even 0 (by omega)
        unfold subtree_hi at hhi
        rw [hl0] at hhi
        simp at hhi
        omega
      · rw [if_neg h2]
        have hdy : d < y := by omega
        have hlvl : 1 ≤ node_level y := by
          by_contra hc
          have h0 : node_level y = 0 := by omega
          unfold subtree_lo at hlo
          unfold subtree_hi at hhi
          rw [h0] at hlo hhi
          simp at hlo hhi
          omega
        obtain ⟨hl1, hl2, hl3⟩ := left_child_props y hlvl
        have hrec := ih (node_left_child y) (node_left_child_lt y h2)
          (show subtree_lo (node_left_child y) ≤ d by omega)
          (show d ≤ subtree_hi (node_left_child y) by omega)
        have hyhi : y - 1 ≤ subtree_hi y := by
          unfold subtree_hi
          have := Nat.one_le_two_pow (n := node_level y)
          omega
        have hylo : subtree_lo y ≤ subtree_lo (node_left_child y) := by omega
        exact ⟨hrec.1, hrec.2.1, hrec.2.2.1, by omega, by omega, by omega⟩

/-- A successful `find?` splits the list at the first hit. -/
theorem find?_eq_some_split {α : Type} (l : List α) (p : α → Bool) (a : α)
    (h : l.find? p = some a) :
    ∃ l1 l2, l = l1 ++ a :: l2 ∧ (∀ b ∈ l1, p b = false) ∧ p a = true := by
  induction l with
  | nil => simp [List.find?] at h
  | cons c t ih =>
    by_cases hc : p c = true
    · rw [List.find?_cons_of_pos _ hc] at h
      obtain rfl := Option.some.inj h
      exact ⟨[], t, rfl, by simp, hc⟩
    · rw [List.find?_cons_of_neg _ (by simpa using hc)] at h
      obtain ⟨l1, l2, heq, hfalse, hpa⟩ := ih h
      exact ⟨c :: l1, l2, by rw [heq]; rfl,
        by intro b hb; rcases List.mem_cons.mp hb with rfl | hb2
           · simpa using hc
           · exact hfalse b hb2, hpa⟩

/-- Finding in an enumeration: the first index whose entry matches. -/
theorem enumFrom_find?_eq (l : List Nat) (ca : Nat) :
    ∀ (n j : Nat) (hj : j < l.length), l.get ⟨j, hj⟩ = ca →
    (∀ i (hi : i < j), l.get ⟨i, by omega⟩ ≠ ca) →
    (l.enumFrom n).find? (fun q => q.2 == ca) = some (n + j, ca) := by
  induction l with
  | nil => intro n j hj; simp at hj
  | cons c t ih =>
    intro n j hj hget hbefore
    cases j with
    | zero =>
      have hca : c = ca := hget
      subst hca
      rw [List.enumFrom_cons, List.find?_cons_of_pos _ (by simp)]
      rfl
    | succ j =>
      have hne : c ≠ ca := hbefore 0 (by omega)
      rw [List.enumFrom_cons, List.find?_cons_of_neg _ (by simpa using hne)]
      have hjt : j < t.length := by simpa using hj
      have hget2 : t.get ⟨j, hjt⟩ = ca := hget
      have hbefore2 : ∀ i (hi : i < j), t.get ⟨i, by omega⟩ ≠ ca := by
        intro i hi
        exact hbefore (i + 1) (by omega)
      rw [ih (n + 1) j hjt hget2 hbefore2, show n + 1 + j = n + (j + 1) by omega]

theorem node_level_root (L : Nat) :
    node_level (root_idx L) = floor_log2 (2 * L - 1) := by
  unfold root_idx
  apply node_level_eq_of_mod
  apply Nat.mod_eq_of_lt
  have h1 : 1 ≤ (2 : Nat) ^ floor_log2 (2 * L - 1) := Nat.one_le_two_pow
  have h2 : (2 : Nat) ^ (floor_log2 (2 * L - 1) + 1) = 2 * 2 ^ floor_log2 (2 * L - 1) := by
    ring
  omega

theorem root_idx_lt (L : Nat) (h : 1 ≤ L) : root_idx L < 2 * L - 1 := by
  unfold root_idx
  have h2 := two_pow_floor_log2_le (2 * L - 1) (by omega)
  have h3 : 1 ≤ (2 : Nat) ^ floor_log2 (2 * L - 1) := Nat.one_le_two_pow
  omega

/-- The root is an ancestor of every in-tree node. -/
theorem is_ancestor_root (d L : Nat) (hd : d < 2 * L - 1) :
    is_ancestor (root_idx L) d L = true := by
  have hL : 1 ≤ L := by omega
  rw [is_ancestor_iff]
  refine ⟨root_idx_lt L hL, ?_, ?_⟩
  · unfold subtree_lo
    rw [node_level_root]
    unfold root_idx
    have h2 : 1 ≤ (2 : Nat) ^ floor_log2 (2 * L - 1) := Nat.one_le_two_pow
    omega
  · unfold subtree_hi
    rw [node_level_root]
    unfold root_idx
    have h1 := lt_two_pow_floor_log2 (2 * L - 1)
    have h2 : 1 ≤ (2 : Nat) ^ floor_log2 (2 * L - 1) := Nat.one_le_two_pow
    have h3 : (2 : Nat) ^ (floor_log2 (2 * L - 1) + 1) = 2 * 2 ^ floor_log2 (2 * L - 1) := by
      ring
    omega

/-- `common_ancestor` really is the lowest common ancestor. -/
theorem common_ancestor_spec (i j L : Nat) (hi : i < 2 * L - 1) (hj : j < 2 * L - 1) :
    is_ancestor (common_ancestor i j L) i L = true ∧
    is_ancestor (common_ancestor i j L) j L = true ∧
    (∀ a, is_ancestor a i L = true → is_ancestor a j L = true →
      node_level (common_ancestor i j L) ≤ node_level a) := by
  have hroot_mem : root_idx L ∈ node_extended_direct_path i L :=
    (mem_iff_is_ancestor _ _ _).mpr (is_ancestor_root i L hi)
  have hroot_anc : is_ancestor (root_idx L) j L = true := is_ancestor_root j L hj
  obtain ⟨ca, hfind⟩ :
      ∃ ca, (node_extended_direct_path i L).find?
        (fun a => is_ancestor a j L) = some ca := by
    cases hcase : (node_extended_direct_path i L).find? (fun a => is_ancestor a j L) with
    | none =>
      exfalso
      have := List.find?_eq_none.mp hcase (root_idx L) hroot_mem
      exact this hroot_anc
    | some ca => exact ⟨ca, rfl⟩
  have hca : common_ancestor i j L = ca := by
    unfold common_ancestor
    rw [hfind]
    rfl
  have hmem : ca ∈ node_extended_direct_path i L := List.mem_of_find?_eq_some hfind
  obtain ⟨l1, l2, hsplit, hfalse, hpa⟩ := find?_eq_some_split _ _ _ hfind
  have hpred : is_ancestor ca j L = true := hpa
  rw [hca]
  refine ⟨(mem_iff_is_ancestor _ _ _).mp hmem, hpred, ?_⟩
  intro a hai haj
  by_contra hcon
  push_neg at hcon
  have hamem : a ∈ node_extended_direct_path i L := (mem_iff_is_ancestor _ _ _).mpr hai
  have hp := extended_direct_path_pairwise i L
  rw [hsplit] at hamem hp
  rcases List.mem_append.mp hamem with ha1 | ha2
  · exact absurd haj (by rw [hfalse a ha1]; simp)
  · rcases List.mem_cons.mp ha2 with rfl | ha3
    · omega
    · have hlt := (List.pairwise_cons.mp (List.pairwise_append.mp hp).2.1).1 a ha3
      omega

/-! ## Claims about the node operations -/

/-- C9: `update_public_key` always succeeds (it is a total function); on a
Blank node it produces a Filled node carrying the new public key with no
private key and no secret; and it is the only node operation that can turn a
Blank node into a Filled one: `update_private_key` and `update_secret` on a
Blank node are the modelled panic, and `get_mut_node_secret` leaves a Blank
node Blank. -/
theorem update_public_key_only_blank_to_filled :
    (∀ pk : DhPublicKey,
      RatchetTreeNode.update_public_key RatchetTreeNode.Blank pk =
        RatchetTreeNode.Filled pk none none) ∧
    (∀ sk : DhPrivateKey,
      RatchetTreeNode.update_private_key RatchetTreeNode.Blank sk = none) ∧
    (∀ sec : List Nat,
      RatchetTreeNode.update_secret RatchetTreeNode.Blank sec = none) ∧
    (∀ secret_len : Nat,
      (RatchetTreeNode.get_mut_node_secret RatchetTreeNode.Blank secret_len).2 =
        RatchetTreeNode.Blank) :=
  ⟨fun _ => rfl, fun _ => rfl, fun _ => rfl, fun _ => rfl⟩

/-- C10: on a Filled node, `update_public_key` replaces only the public key
and leaves the stored private key and secret untouched. -/
theorem update_public_key_filled_frame (pk0 : DhPublicKey)
    (sk : Option DhPrivateKey) (sec : Option (List Nat)) (pk : DhPublicKey) :
    RatchetTreeNode.update_public_key (RatchetTreeNode.Filled pk0 sk sec) pk =
      RatchetTreeNode.Filled pk sk sec := rfl

/-! ## Claims about handshake construction -/

/-- C6: the handshake built by `from_group_op` has `prior_epoch` equal to the
state's epoch, `signer_index` equal to the state's roster index, carries the
given operation, its signature is the cipher suite's signature over the
transcript hash under the identity key, and its confirmation is the HMAC,
keyed by the epoch's confirmation key, of the transcript hash concatenated
with the signature bytes. -/
theorem from_group_op_fields (cs : CipherSuite) (state : GroupState)
    (op : GroupOperation) :
    (Handshake.from_group_op cs state op).prior_epoch = state.epoch ∧
    (Handshake.from_group_op cs state op).signer_index = state.roster_index ∧
    (Handshake.from_group_op cs state op).operation = op ∧
    (Handshake.from_group_op cs state op).signature =
      sig_sign cs state.identity_key state.transcript_hash ∧
    (Handshake.from_group_op cs state op).confirmation =
      hmac_bytes cs.hash_alg state.epoch_secrets.confirmation_key
        (state.transcript_hash ++
          (sig_sign cs state.identity_key state.transcript_hash).to_bytes) := by
  refine ⟨rfl, rfl, rfl, rfl, ?_⟩
  show hmac_bytes cs.hash_alg state.epoch_secrets.confirmation_key
    (([] ++ state.transcript_hash) ++ _) = _
  rw [List.nil_append]

/-! ## Claims about the structural tree operations -/

/-- C2 (counter-evidence): the tree `[F, B, F, B, B]` is truncated by
`truncate_to_last_nonblank` to `[F]`, not to `[F, B, F]` as the claim
demands, because the reversed leaf scan lacks a break and therefore keeps
the lowest-index filled leaf; on `[B, B, B]` the claimed clearing does
happen. -/
theorem truncate_to_last_nonblank_keeps_lowest :
    RatchetTree.truncate_to_last_nonblank
        ⟨[exampleFilled 0, RatchetTreeNode.Blank, exampleFilled 2,
          RatchetTreeNode.Blank, RatchetTreeNode.Blank]⟩ =
      ⟨[exampleFilled 0]⟩ ∧
    RatchetTree.truncate_to_last_nonblank
        ⟨[RatchetTreeNode.Blank, RatchetTreeNode.Blank, RatchetTreeNode.Blank]⟩ =
      (⟨[]⟩ : RatchetTree) :=
  ⟨rfl, rfl⟩

/-- C4 (counter-evidence): `get_root_node` returns `none` on the non-empty
three-node tree `[F, F, F]`, because the source passes the node count to
`root_idx`, which expects the leaf count, and so looks up index 3 in a
three-element vector. -/
theorem get_root_node_none_on_nonempty :
    (RatchetTree.get_root_node
        ⟨[exampleFilled 0, exampleFilled 1, exampleFilled 2]⟩ = none) ∧
    (RatchetTree.size ⟨[exampleFilled 0, exampleFilled 1, exampleFilled 2]⟩ ≠ 0) :=
  ⟨rfl, by decide⟩

/-- `truncate_to_last_nonblank`, with its let-bindings spelled out. -/
theorem truncate_to_last_nonblank_eq (t : RatchetTree) :
    t.truncate_to_last_nonblank =
      match ((tree_leaves (num_leaves_in_tree t.size)).reverse).foldl
          (fun acc leaf_idx =>
            if (t.nodes.getD leaf_idx RatchetTreeNode.Blank).is_filled then some leaf_idx
            else acc) none with
      | none => ⟨[]⟩
      | some i => ⟨t.nodes.take (i + 1)⟩ := rfl

/-- A keep-the-hits fold can only return the initial value or a member. -/
theorem foldl_keep_some (p : Nat → Bool) (l : List Nat) (init : Option Nat) (i : Nat)
    (h : l.foldl (fun acc x => if p x then some x else acc) init = some i) :
    init = some i ∨ i ∈ l := by
  induction l generalizing init with
  | nil => exact Or.inl h
  | cons c tl ih =>
    rw [List.foldl_cons] at h
    rcases ih _ h with hinit | hmem
    · by_cases hc : p c = true
      · rw [if_pos hc] at hinit
        exact Or.inr (by rw [← Option.some.inj hinit]; exact List.mem_cons_self c tl)
      · rw [if_neg hc] at hinit
        exact Or.inl hinit
    · exact Or.inr (List.mem_cons_of_mem c hmem)

/-- Truncation preserves the 0-or-odd size invariant. -/
theorem truncate_size_zero_or_odd (t : RatchetTree)
    (h : t.size = 0 ∨ t.size % 2 = 1) :
    (t.truncate_to_last_nonblank).size = 0 ∨
      (t.truncate_to_last_nonblank).size % 2 = 1 := by
  rw [truncate_to_last_nonblank_eq]
  cases hfold : ((tree_leaves (num_leaves_in_tree t.size)).reverse).foldl
      (fun acc leaf_idx =>
        if (t.nodes.getD leaf_idx RatchetTreeNode.Blank).is_filled then some leaf_idx
        else acc) none with
  | none => exact Or.inl rfl
  | some i =>
    rcases foldl_keep_some _ _ _ _ hfold with hinit | hmem
    · exact absurd hinit (by simp)
    · rw [List.mem_reverse] at hmem
      unfold tree_leaves at hmem
      rw [List.mem_map] at hmem
      obtain ⟨k, hk, rfl⟩ := hmem
      rw [List.mem_range] at hk
      have hsz : t.size % 2 = 1 := by
        rcases h with h0 | h1
        · exfalso
          unfold num_leaves_in_tree at hk
          omega
        · exact h1
      have hlt : 2 * k + 1 ≤ t.size := by
        unfold num_leaves_in_tree at hk
        omega
      right
      show (t.nodes.take (2 * k + 1)).length % 2 = 1
      rw [List.length_take]
      have : t.nodes.length = t.size := rfl
      omega

/-- Adding a leaf preserves the 0-or-odd size invariant. -/
theorem add_leaf_size_zero_or_odd (t : RatchetTree) (n : RatchetTreeNode)
    (h : t.size = 0 ∨ t.size % 2 = 1) :
    (t.add_leaf_node n).size = 0 ∨ (t.add_leaf_node n).size % 2 = 1 := by
  unfold RatchetTree.add_leaf_node
  by_cases he : t.nodes.isEmpty
  · rw [if_pos he]
    right
    show (t.nodes ++ [n]).length % 2 = 1
    rw [List.isEmpty_iff] at he
    rw [he]
    rfl
  · rw [if_neg he]
    right
    show (t.nodes ++ [RatchetTreeNode.Blank, n]).length % 2 = 1
    simp only [List.length_append, List.length_cons, List.length_nil]
    rw [List.isEmpty_iff] at he
    have hlen : t.nodes.length ≠ 0 := fun hc => he (List.eq_nil_of_length_eq_zero hc)
    have hsz : t.nodes.length % 2 = 1 := by
      rcases h with h0 | h1
      · exact absurd h0 hlen
      · exact h1
    omega

/-- C7: starting from the empty tree, any sequence of `add_leaf_node` and
`truncate_to_last_nonblank` operations leaves the size 0 or odd; and
`add_leaf_node` pushes the node alone onto an empty tree and a Blank
followed by the node otherwise. -/
theorem tree_size_zero_or_odd (ops : List TreeOp) :
    ((ops.foldl applyTreeOp RatchetTree.new).size = 0 ∨
      (ops.foldl applyTreeOp RatchetTree.new).size % 2 = 1) ∧
    (∀ (t : RatchetTree) (n : RatchetTreeNode),
      t.add_leaf_node n =
        (if t.nodes = [] then ⟨[n]⟩
         else ⟨t.nodes ++ [RatchetTreeNode.Blank, n]⟩ : RatchetTree)) := by
  constructor
  · have haux : ∀ (l : List TreeOp) (t : RatchetTree),
        t.size = 0 ∨ t.size % 2 = 1 →
        ((l.foldl applyTreeOp t).size = 0 ∨ (l.foldl applyTreeOp t).size % 2 = 1) := by
      intro l
      induction l with
      | nil => intro t ht; exact ht
      | cons op rest ih =>
        intro t ht
        rw [List.foldl_cons]
        apply ih
        cases op with
        | add n => exact add_leaf_size_zero_or_odd t n ht
        | truncate => exact truncate_size_zero_or_odd t ht
    exact haux ops RatchetTree.new (Or.inl rfl)
  · intro t n
    unfold RatchetTree.add_leaf_node
    cases hn : t.nodes with
    | nil => simp
    | cons c rest => simp

/-! ## Claims about direct-path encryption -/

/-- C8: whenever `encrypt_direct_path_secrets` succeeds, the first node
message of the result carries the public key stored at `my_leaf_idx` and an
empty ciphertext vector. -/
theorem encrypt_direct_path_first_message (t : RatchetTree) (cs : CipherSuite)
    (my_leaf_idx csprng : Nat) (msg : DirectPathMessage)
    (h : t.encrypt_direct_path_secrets cs my_leaf_idx csprng = Except.ok msg) :
    ∃ pk, (t.get my_leaf_idx).bind RatchetTreeNode.get_public_key = some pk ∧
      msg.node_messages.head? =
        some { public_key := pk, node_secrets := [] } := by
  unfold RatchetTree.encrypt_direct_path_secrets at h
  by_cases hpar : my_leaf_idx % 2 ≠ 0
  · rw [if_pos hpar] at h
    exact absurd h (by simp)
  · rw [if_neg hpar] at h
    split at h
    · exact absurd h (by simp)
    next my_node hget =>
      split at h
      · exact absurd h (by simp)
      next pk hpk =>
        cases hloop : encryptPathLoop cs t (num_leaves_in_tree t.size) csprng
            (node_direct_path my_leaf_idx (num_leaves_in_tree t.size)) with
        | error e =>
          rw [hloop] at h
          exact absurd h (by simp [Bind.bind, Except.bind])
        | ok rest =>
          rw [hloop] at h
          simp only [Bind.bind, Except.bind, Except.ok.injEq] at h
          refine ⟨pk, by rw [hget]; simpa using hpk, ?_⟩
          rw [← h]
          rfl

/-- Witness for C8 at a concrete three-node tree. -/
theorem encrypt_direct_path_first_message_witness :
    (RatchetTree.encrypt_direct_path_secrets
        ⟨[RatchetTreeNode.Filled ⟨[0]⟩ none none,
          RatchetTreeNode.Filled ⟨[1]⟩ none (some [9]),
          RatchetTreeNode.Filled ⟨[2]⟩ none none]⟩ exampleCS 0 0 =
      Except.ok ⟨[⟨⟨[0]⟩, []⟩, ⟨⟨[1]⟩, [⟨⟨[2]⟩, [9]⟩]⟩]⟩) ∧
    (∃ pk,
      (RatchetTree.get
          ⟨[RatchetTreeNode.Filled ⟨[0]⟩ none none,
            RatchetTreeNode.Filled ⟨[1]⟩ none (some [9]),
            RatchetTreeNode.Filled ⟨[2]⟩ none none]⟩ 0).bind
        RatchetTreeNode.get_public_key = some pk ∧
      (DirectPathMessage.node_messages
          ⟨[⟨⟨[0]⟩, []⟩, ⟨⟨[1]⟩, [⟨⟨[2]⟩, [9]⟩]⟩]⟩).head? =
        some { public_key := pk, node_secrets := [] }) :=
  ⟨rfl, encrypt_direct_path_first_message _ exampleCS 0 0 _ rfl⟩

/-! ## Claims about resolution -/

theorem resolutionAux_filled (nodes : List RatchetTreeNode) (L f i : Nat)
    (pk : DhPublicKey) (sk : Option DhPrivateKey) (sec : Option (List Nat))
    (hnode : nodes.getD i RatchetTreeNode.Blank = RatchetTreeNode.Filled pk sk sec) :
    resolutionAux nodes L (f + 1) i = [i] := by
  simp only [resolutionAux]
  rw [hnode]

theorem resolutionAux_blank_leaf (nodes : List RatchetTreeNode) (L f i : Nat)
    (hnode : nodes.getD i RatchetTreeNode.Blank = RatchetTreeNode.Blank)
    (hlvl : node_level i = 0) :
    resolutionAux nodes L (f + 1) i = [] := by
  simp only [resolutionAux]
  rw [hnode]
  exact if_pos hlvl

theorem resolutionAux_blank_internal (nodes : List RatchetTreeNode) (L f i : Nat)
    (hnode : nodes.getD i RatchetTreeNode.Blank = RatchetTreeNode.Blank)
    (hlvl : node_level i ≠ 0) :
    resolutionAux nodes L (f + 1) i =
      resolutionAux nodes L f (node_left_child i) ++
      resolutionAux nodes L f (node_right_child i L) := by
  simp only [resolutionAux]
  rw [hnode]
  exact if_neg hlvl

/-- Lower bounds of own subtree range. -/
theorem subtree_lo_le_self (x : Nat) : subtree_lo x ≤ x := by
  unfold subtree_lo
  have := Nat.one_le_two_pow (n := node_level x)
  omega

theorem self_le_subtree_hi (x : Nat) : x ≤ subtree_hi x := by
  unfold subtree_hi
  have := Nat.one_le_two_pow (n := node_level x)
  omega

/-- In-tree facts about the right child of an in-tree internal node when the
node count is odd. -/
theorem node_right_child_facts (i L : Nat) (hlvl : 1 ≤ node_level i)
    (hi : i < 2 * L - 1) :
    node_right_child i L < 2 * L - 1 ∧
    i + 1 ≤ subtree_lo (node_right_child i L) ∧
    subtree_hi (node_right_child i L) ≤ subtree_hi i ∧
    node_level (node_right_child i L) ≤ node_level i - 1 ∧
    (∀ d, d < 2 * L - 1 → i + 1 ≤ d → d ≤ subtree_hi i →
      subtree_lo (node_right_child i L) ≤ d ∧ d ≤ subtree_hi (node_right_child i L)) := by
  have hL : 1 ≤ L := by omega
  have hodd : i % 2 = 1 := odd_of_node_level_pos i hlvl
  have hi1 : i + 1 < 2 * L - 1 := by omega
  obtain ⟨hr1, hr2, hr3⟩ := right_step_props i hlvl
  have hhi_i : i + 1 ≤ subtree_hi i := by
    unfold subtree_hi
    have h2 : 2 ≤ 2 ^ node_level i := by
      calc 2 = 2 ^ 1 := by norm_num
      _ ≤ 2 ^ node_level i := Nat.pow_le_pow_right (by omega) hlvl
    omega
  have hbase := left_descend_props (i + 2 ^ (node_level i - 1)) (2 * L - 1) (i + 1)
    hi1 (by rw [hr2]) (by rw [hr3]; exact hhi_i)
  unfold node_right_child
  refine ⟨hbase.2.2.1, by rw [hr2] at hbase; omega, by rw [hr3] at hbase; omega,
    by rw [hr1] at hbase; omega, ?_⟩
  intro d hd hdlo hdhi
  have hb2 := left_descend_props (i + 2 ^ (node_level i - 1)) (2 * L - 1) d
    hd (by rw [hr2]; exact hdlo) (by rw [hr3]; exact hdhi)
  exact ⟨hb2.1, hb2.2.1⟩

/-- Fuel irrelevance for `resolutionAux` on odd-sized trees. -/
theorem resolutionAux_congr (nodes : List RatchetTreeNode) (L : Nat) :
    ∀ (f g i : Nat), i < 2 * L - 1 → node_level i < f → node_level i < g →
    resolutionAux nodes L f i = resolutionAux nodes L g i := by
  intro f
  induction f with
  | zero => intro g i _ hf; omega
  | succ f ih =>
    intro g i hi hf hg
    cases g with
    | zero => omega
    | succ g =>
      cases hnode : nodes.getD i RatchetTreeNode.Blank with
      | Filled pk sk sec =>
        rw [resolutionAux_filled nodes L f i pk sk sec hnode,
          resolutionAux_filled nodes L g i pk sk sec hnode]
      | Blank =>
        by_cases hlvl : node_level i = 0
        · rw [resolutionAux_blank_leaf nodes L f i hnode hlvl,
            resolutionAux_blank_leaf nodes L g i hnode hlvl]
        · rw [resolutionAux_blank_internal nodes L f i hnode hlvl,
            resolutionAux_blank_internal nodes L g i hnode hlvl]
          have hpos : 1 ≤ node_level i := by omega
          obtain ⟨hl1, _, _⟩ := left_child_props i hpos
          obtain ⟨hrc1, _, _, hrc4, _⟩ := node_right_child_facts i L hpos hi
          have hlc_lt : node_left_child i < 2 * L - 1 :=
            lt_of_lt_of_le (node_left_child_lt i (by
              intro hc
              rw [hc] at hpos
              rw [node_level_of_even 0 (by omega)] at hpos
              omega)) (by omega)
          rw [ih g (node_left_child i) hlc_lt (by omega) (by omega),
            ih g (node_right_child i L) hrc1 (by omega) (by omega)]

/-- Every member of a resolution is in-tree, and its subtree range nests
inside the range of the resolved node. -/
theorem resolution_mem_range (nodes : List RatchetTreeNode) (L : Nat) :
    ∀ (f i : Nat), i < 2 * L - 1 → node_level i < f →
    ∀ a ∈ resolutionAux nodes L f i,
      a < 2 * L - 1 ∧ subtree_lo i ≤ subtree_lo a ∧ subtree_hi a ≤ subtree_hi i := by
  intro f
  induction f with
  | zero => intro i _ hf; omega
  | succ f ih =>
    intro i hi hf a ha
    cases hnode : nodes.getD i RatchetTreeNode.Blank with
    | Filled pk sk sec =>
      rw [resolutionAux_filled nodes L f i pk sk sec hnode] at ha
      rcases List.mem_singleton.mp ha with rfl
      exact ⟨hi, le_rfl, le_rfl⟩
    | Blank =>
      by_cases hlvl : node_level i = 0
      · rw [resolutionAux_blank_leaf nodes L f i hnode hlvl] at ha
        exact absurd ha (by simp)
      · rw [resolutionAux_blank_internal nodes L f i hnode hlvl] at ha
        have hpos : 1 ≤ node_level i := by omega
        obtain ⟨hl1, hl2, hl3⟩ := left_child_props i hpos
        obtain ⟨hrc1, hrc2, hrc3, hrc4, _⟩ := node_right_child_facts i L hpos hi
        have hi0 : i ≠ 0 := by
          intro hc
          rw [hc, node_level_of_even 0 (by omega)] at hpos
          omega
        have hlc_lt : node_left_child i < 2 * L - 1 :=
          lt_of_lt_of_le (node_left_child_lt i hi0) (by omega)
        have hhi_self : i ≤ subtree_hi i := self_le_subtree_hi i
        have hlo_self : subtree_lo i ≤ i := subtree_lo_le_self i
        rcases List.mem_append.mp ha with hleft | hright
        · obtain ⟨g1, g2, g3⟩ := ih (node_left_child i) hlc_lt (by omega) a hleft
          exact ⟨g1, by omega, by omega⟩
        · obtain ⟨g1, g2, g3⟩ := ih (node_right_child i L) hrc1 (by omega) a hright
          refine ⟨g1, ?_, by omega⟩
          have := subtree_lo_le_self (node_right_child i L)
          omega

/-- Every member of a resolution points at a Filled node. -/
theorem resolution_mem_filled (nodes : List RatchetTreeNode) (L : Nat) :
    ∀ (f i : Nat), ∀ a ∈ resolutionAux nodes L f i,
      (nodes.getD a RatchetTreeNode.Blank).is_filled = true := by
  intro f
  induction f with
  | zero => intro i a ha; exact absurd ha (by simp [resolutionAux])
  | succ f ih =>
    intro i a ha
    cases hnode : nodes.getD i RatchetTreeNode.Blank with
    | Filled pk sk sec =>
      rw [resolutionAux_filled nodes L f i pk sk sec hnode] at ha
      rcases List.mem_singleton.mp ha with rfl
      rw [hnode]
      rfl
    | Blank =>
      by_cases hlvl : node_level i = 0
      · rw [resolutionAux_blank_leaf nodes L f i hnode hlvl] at ha
        exact absurd ha (by simp)
      · rw [resolutionAux_blank_internal nodes L f i hnode hlvl] at ha
        rcases List.mem_append.mp ha with hl | hr
        · exact ih (node_left_child i) a hl
        · exact ih (node_right_child i L) a hr

/-- Resolutions are strictly increasing in index. -/
theorem resolution_pairwise (nodes : List RatchetTreeNode) (L : Nat) :
    ∀ (f i : Nat), i < 2 * L - 1 → node_level i < f →
    (resolutionAux nodes L f i).Pairwise (· < ·) := by
  intro f
  induction f with
  | zero => intro i _ hf; omega
  | succ f ih =>
    intro i hi hf
    cases hnode : nodes.getD i RatchetTreeNode.Blank with
    | Filled pk sk sec =>
      rw [resolutionAux_filled nodes L f i pk sk sec hnode]
      simp
    | Blank =>
      by_cases hlvl : node_level i = 0
      · rw [resolutionAux_blank_leaf nodes L f i hnode hlvl]
        simp
      · rw [resolutionAux_blank_internal nodes L f i hnode hlvl]
        have hpos : 1 ≤ node_level i := by omega
        obtain ⟨hl1, hl2, hl3⟩ := left_child_props i hpos
        obtain ⟨hrc1, hrc2, hrc3, hrc4, _⟩ := node_right_child_facts i L hpos hi
        have hi0 : i ≠ 0 := by
          intro hc
          rw [hc, node_level_of_even 0 (by omega)] at hpos
          omega
        have hlc_lt : node_left_child i < 2 * L - 1 :=
          lt_of_lt_of_le (node_left_child_lt i hi0) (by omega)
        rw [List.pairwise_append]
        refine ⟨ih (node_left_child i) hlc_lt (by omega),
          ih (node_right_child i L) hrc1 (by omega), ?_⟩
        intro a ha b hb
        obtain ⟨_, ga2, ga3⟩ :=
          resolution_mem_range nodes L f (node_left_child i) hlc_lt (by omega) a ha
        obtain ⟨_, gb2, gb3⟩ :=
          resolution_mem_range nodes L f (node_right_child i L) hrc1 (by omega) b hb
        have h1 : a ≤ subtree_hi a := self_le_subtree_hi a
        have h2 : subtree_lo b ≤ b := subtree_lo_le_self b
        omega

/-- Every Filled node under the resolved node is covered by exactly one
resolution member. -/
theorem resolution_cover (nodes : List RatchetTreeNode) (L : Nat) :
    ∀ (f i : Nat), i < 2 * L - 1 → node_level i < f →
    ∀ d, d < 2 * L - 1 →
      (nodes.getD d RatchetTreeNode.Blank).is_filled = true →
      is_ancestor i d L = true →
      (resolutionAux nodes L f i).countP (fun a => is_ancestor a d L) = 1 := by
  intro f
  induction f with
  | zero => intro i _ hf; omega
  | succ f ih =>
    intro i hi hf d hd hdfill hanc
    obtain ⟨_, hdlo, hdhi⟩ := (is_ancestor_iff i d L).mp hanc
    cases hnode : nodes.getD i RatchetTreeNode.Blank with
    | Filled pk sk sec =>
      rw [resolutionAux_filled nodes L f i pk sk sec hnode]
      simp [hanc]
    | Blank =>
      have hdi : d ≠ i := by
        intro hc
        rw [hc, hnode] at hdfill
        exact absurd hdfill (by simp [RatchetTreeNode.is_filled])
      by_cases hlvl : node_level i = 0
      · exfalso
        apply hdi
        unfold subtree_lo at hdlo
        unfold subtree_hi at hdhi
        rw [hlvl] at hdlo hdhi
        simp at hdlo hdhi
        omega
      · rw [resolutionAux_blank_internal nodes L f i hnode hlvl]
        rw [List.countP_append]
        have hpos : 1 ≤ node_level i := by omega
        obtain ⟨hl1, hl2, hl3⟩ := left_child_props i hpos
        obtain ⟨hrc1, hrc2, hrc3, hrc4, hrc5⟩ := node_right_child_facts i L hpos hi
        have hi0 : i ≠ 0 := by
          intro hc
          rw [hc, node_level_of_even 0 (by omega)] at hpos
          omega
        have hlc_lt : node_left_child i < 2 * L - 1 :=
          lt_of_lt_of_le (node_left_child_lt i hi0) (by omega)
        rcases Nat.lt_or_ge d i with hdlt | hdge
        · have hancl : is_ancestor (node_left_child i) d L = true := by
            rw [is_ancestor_iff]
            exact ⟨hlc_lt, by omega, by omega⟩
          have hcl := ih (node_left_child i) hlc_lt (by omega) d hd hdfill hancl
          have hcr : (resolutionAux nodes L f (node_right_child i L)).countP
              (fun a => is_ancestor a d L) = 0 := by
            rw [List.countP_eq_zero]
            intro a ha
            obtain ⟨_, ga2, _⟩ :=
              resolution_mem_range nodes L f (node_right_child i L) hrc1 (by omega) a ha
            intro hcon
            obtain ⟨_, hc2, _⟩ := (is_ancestor_iff a d L).mp hcon
            omega
          omega
        · have hdgt : i + 1 ≤ d := by omega
          have hancr : is_ancestor (node_right_child i L) d L = true := by
            rw [is_ancestor_iff]
            obtain ⟨w1, w2⟩ := hrc5 d hd hdgt hdhi
            exact ⟨hrc1, w1, w2⟩
          have hcr := ih (node_right_child i L) hrc1 (by omega) d hd hdfill hancr
          have hcl : (resolutionAux nodes L f (node_left_child i)).countP
              (fun a => is_ancestor a d L) = 0 := by
            rw [List.countP_eq_zero]
            intro a ha
            obtain ⟨_, _, ga3⟩ :=
              resolution_mem_range nodes L f (node_left_child i) hlc_lt (by omega) a ha
            intro hcon
            obtain ⟨_, _, hc3⟩ := (is_ancestor_iff a d L).mp hcon
            omega
          omega

/-- C3: for every tree satisfying the size invariant and every in-tree index
`i`, the resolution of `i` is a strictly increasing sequence of indices,
every index in it points to a Filled node, and every Filled in-tree
descendant of `i` (including `i` itself when Filled) has exactly one
ancestor-or-self in the returned set. -/
theorem resolution_spec (t : RatchetTree) (i : Nat)
    (hodd : t.size % 2 = 1) (hi : i < t.size) :
    (t.resolution i).Pairwise (· < ·) ∧
    (∀ a ∈ t.resolution i,
      (t.nodes.getD a RatchetTreeNode.Blank).is_filled = true) ∧
    (∀ d, d < t.size →
      (t.nodes.getD d RatchetTreeNode.Blank).is_filled = true →
      is_ancestor i d (num_leaves_in_tree t.size) = true →
      (t.resolution i).countP
        (fun a => is_ancestor a d (num_leaves_in_tree t.size)) = 1) := by
  have hsz : 2 * num_leaves_in_tree t.size - 1 = t.size := by
    unfold num_leaves_in_tree
    omega
  have hiN : i < 2 * num_leaves_in_tree t.size - 1 := by omega
  refine ⟨resolution_pairwise t.nodes _ _ i hiN (by omega), ?_, ?_⟩
  · intro a ha
    exact resolution_mem_filled t.nodes _ _ i a ha
  · intro d hd hdfill hanc
    exact resolution_cover t.nodes _ _ i hiN (by omega) d (by omega) hdfill hanc

/-- Witness for C3 at the concrete tree `[F, B, F]` and node 1. -/
theorem resolution_spec_witness :
    ((RatchetTree.size ⟨[exampleFilled 0, RatchetTreeNode.Blank, exampleFilled 2]⟩) % 2 = 1) ∧
    (1 < RatchetTree.size ⟨[exampleFilled 0, RatchetTreeNode.Blank, exampleFilled 2]⟩) ∧
    ((RatchetTree.resolution
        ⟨[exampleFilled 0, RatchetTreeNode.Blank, exampleFilled 2]⟩ 1).Pairwise (· < ·) ∧
      (∀ a ∈ RatchetTree.resolution
          ⟨[exampleFilled 0, RatchetTreeNode.Blank, exampleFilled 2]⟩ 1,
        ((⟨[exampleFilled 0, RatchetTreeNode.Blank, exampleFilled 2]⟩ :
            RatchetTree).nodes.getD a RatchetTreeNode.Blank).is_filled = true) ∧
      (∀ d, d < RatchetTree.size ⟨[exampleFilled 0, RatchetTreeNode.Blank, exampleFilled 2]⟩ →
        ((⟨[exampleFilled 0, RatchetTreeNode.Blank, exampleFilled 2]⟩ :
            RatchetTree).nodes.getD d RatchetTreeNode.Blank).is_filled = true →
        is_ancestor 1 d (num_leaves_in_tree
          (RatchetTree.size ⟨[exampleFilled 0, RatchetTreeNode.Blank, exampleFilled 2]⟩)) = true →
        (RatchetTree.resolution
            ⟨[exampleFilled 0, RatchetTreeNode.Blank, exampleFilled 2]⟩ 1).countP
          (fun a => is_ancestor a d (num_leaves_in_tree
            (RatchetTree.size ⟨[exampleFilled 0, RatchetTreeNode.Blank, exampleFilled 2]⟩))) = 1)) :=
  ⟨by decide, by decide,
    resolution_spec ⟨[exampleFilled 0, RatchetTreeNode.Blank, exampleFilled 2]⟩ 1
      (by decide) (by decide)⟩

/-! ## Proof development: propagation of a new path secret -/

theorem mk_nodes (ns : List RatchetTreeNode) : (RatchetTree.mk ns).nodes = ns := rfl

/-- `setNodeKeys` always produces a fully filled node. -/
theorem setNodeKeys_eval (node : RatchetTreeNode) (pk : DhPublicKey)
    (sk : DhPrivateKey) (sec : List Nat) :
    setNodeKeys node pk sk sec = RatchetTreeNode.Filled pk (some sk) (some sec) := by
  cases node <;> rfl

/-- Unfolding one step of the propagation loop. -/
theorem propogatePathLoop_cons (cs : CipherSuite) (t : RatchetTree) (ps : List Nat)
    (c : Nat) (rest : List Nat) :
    propogatePathLoop cs t ps (c :: rest) =
      propogatePathLoop cs
        ⟨t.nodes.set c (RatchetTreeNode.Filled ⟨pathNodeSecret cs ps⟩
          (some (⟨pathNodeSecret cs ps⟩ : DhPrivateKey)) (some (pathNodeSecret cs ps)))⟩
        (pathNextSecret cs ps) rest := by
  show propogatePathLoop cs
      ⟨t.nodes.set c (setNodeKeys (t.nodes.getD c RatchetTreeNode.Blank)
        ⟨pathNodeSecret cs ps⟩ ⟨pathNodeSecret cs ps⟩ (pathNodeSecret cs ps))⟩
      (pathNextSecret cs ps) rest = _
  rw [setNodeKeys_eval]

theorem propogatePathLoop_length (cs : CipherSuite) (path : List Nat) :
    ∀ (t : RatchetTree) (ps : List Nat),
    (propogatePathLoop cs t ps path).nodes.length = t.nodes.length := by
  induction path with
  | nil => intro t ps; rfl
  | cons c rest ih =>
    intro t ps
    rw [propogatePathLoop_cons, ih]
    simp [List.length_set]

theorem getD_set_general {α : Type} (l : List α) (j i : Nat) (v d : α) :
    (l.set j v).getD i d = if j = i ∧ j < l.length then v else l.getD i d := by
  rw [List.getD_eq_getElem?_getD, List.getD_eq_getElem?_getD, List.getElem?_set]
  by_cases h1 : j = i
  · subst h1
    by_cases h2 : j < l.length
    · rw [if_pos rfl, if_pos h2, if_pos ⟨rfl, h2⟩]
      rfl
    · rw [if_pos rfl, if_neg h2, if_neg (fun hc => h2 hc.2)]
      rw [List.getElem?_eq_none (by omega)]
  · rw [if_neg h1, if_neg (fun hc => h1 hc.1)]

/-- After the propagation loop, every node is either untouched or holds a
matching seed-derived key pair together with its node secret. -/
theorem propogatePathLoop_getD (cs : CipherSuite) (path : List Nat) :
    ∀ (t : RatchetTree) (ps : List Nat) (i : Nat),
    (propogatePathLoop cs t ps path).nodes.getD i RatchetTreeNode.Blank =
        t.nodes.getD i RatchetTreeNode.Blank ∨
    ∃ ns : List Nat,
      (propogatePathLoop cs t ps path).nodes.getD i RatchetTreeNode.Blank =
        RatchetTreeNode.Filled ⟨ns⟩ (some (⟨ns⟩ : DhPrivateKey)) (some ns) := by
  induction path with
  | nil => intro t ps i; exact Or.inl rfl
  | cons c rest ih =>
    intro t ps i
    rw [propogatePathLoop_cons]
    set v := RatchetTreeNode.Filled (⟨pathNodeSecret cs ps⟩ : DhPublicKey)
      (some (⟨pathNodeSecret cs ps⟩ : DhPrivateKey)) (some (pathNodeSecret cs ps)) with hv
    rcases ih ⟨t.nodes.set c v⟩ (pathNextSecret cs ps) i with h | h
    · rw [h, mk_nodes, getD_set_general]
      by_cases hc : c = i ∧ c < t.nodes.length
      · rw [if_pos hc]
        exact Or.inr ⟨pathNodeSecret cs ps, rfl⟩
      · rw [if_neg hc]
        exact Or.inl rfl
    · exact Or.inr h

/-- The propagation loop preserves well-keyedness of any node. -/
theorem propogatePathLoop_wk (cs : CipherSuite) (path : List Nat) (t : RatchetTree)
    (ps : List Nat) (i : Nat)
    (h : (t.nodes.getD i RatchetTreeNode.Blank).well_keyed = true) :
    ((propogatePathLoop cs t ps path).nodes.getD i
      RatchetTreeNode.Blank).well_keyed = true := by
  rcases propogatePathLoop_getD cs path t ps i with heq | ⟨ns, heq⟩
  · rw [heq]; exact h
  · rw [heq]
    simp [RatchetTreeNode.well_keyed, dh_public_of]

/-- Every node the propagation loop visits ends up well keyed. -/
theorem propogatePathLoop_wk_mem (cs : CipherSuite) (path : List Nat) :
    ∀ (t : RatchetTree) (ps : List Nat) (i : Nat), i ∈ path → i < t.nodes.length →
    ((propogatePathLoop cs t ps path).nodes.getD i
      RatchetTreeNode.Blank).well_keyed = true := by
  induction path with
  | nil => intro t ps i hmem _; exact absurd hmem (by simp)
  | cons c rest ih =>
    intro t ps i hmem hlen
    rw [propogatePathLoop_cons]
    rcases List.mem_cons.mp hmem with rfl | hrest
    · apply propogatePathLoop_wk
      rw [mk_nodes, getD_set_general, if_pos ⟨rfl, hlen⟩]
      simp [RatchetTreeNode.well_keyed, dh_public_of]
    · apply ih
      · exact hrest
      · rw [mk_nodes]
        simpa [List.length_set] using hlen

theorem propogate_new_path_secret_size (t : RatchetTree) (cs : CipherSuite)
    (ps : List Nat) (start : Nat) :
    (t.propogate_new_path_secret cs ps start).size = t.size := by
  unfold RatchetTree.propogate_new_path_secret RatchetTree.size
  exact propogatePathLoop_length cs _ t ps

theorem num_leaves_in_tree_odd (L : Nat) (h : 1 ≤ L) :
    num_leaves_in_tree (2 * L - 1) = L := by
  unfold num_leaves_in_tree
  omega

/-- Folding propagation over a set of leaves: a node ends well keyed if it
started well keyed or lies on the extended direct path of one of the leaves. -/
theorem fold_propagate_wk (cs : CipherSuite) (L : Nat) (ps : Nat → List Nat) (hL : 1 ≤ L) :
    ∀ (ls : List Nat) (t : RatchetTree), t.size = 2 * L - 1 →
    ∀ i : Nat,
    ((t.nodes.getD i RatchetTreeNode.Blank).well_keyed = true ∨
      ∃ l ∈ ls, i ∈ node_extended_direct_path (2 * l) L) →
    ((ls.foldl (fun tr l => tr.propogate_new_path_secret cs (ps l) (2 * l)) t).nodes.getD i
        RatchetTreeNode.Blank).well_keyed = true := by
  intro ls
  induction ls with
  | nil =>
    intro t _ i hdisj
    rcases hdisj with h | ⟨l, hl, _⟩
    · exact h
    · exact absurd hl (by simp)
  | cons c rest ih =>
    intro t hsz i hdisj
    rw [List.foldl_cons]
    apply ih
    · rw [propogate_new_path_secret_size]
      exact hsz
    · rcases hdisj with h | ⟨l, hl, hmem⟩
      · exact Or.inl (by
          unfold RatchetTree.propogate_new_path_secret
          exact propogatePathLoop_wk cs _ t (ps c) i h)
      · rcases List.mem_cons.mp hl with rfl | hl2
        · refine Or.inl ?_
          unfold RatchetTree.propogate_new_path_secret
          have hnl : num_leaves_in_tree t.size = L := by
            rw [hsz]
            exact num_leaves_in_tree_odd L hL
          rw [hnl]
          apply propogatePathLoop_wk_mem
          · exact hmem
          · have hm := (mem_extended_direct_path i (2 * l) L).mp hmem
            have hlen : t.nodes.length = 2 * L - 1 := hsz
            omega
        · exact Or.inr ⟨l, hl2, hmem⟩

/-- The low end of any subtree range is an even (leaf) index. -/
theorem subtree_lo_even (x : Nat) : subtree_lo x % 2 = 0 := by
  have h1 : subtree_lo x = subtree_lo (anc x (node_level x)) := by
    rw [anc_node_level]
  rw [h1, subtree_lo_anc]
  have h2 : (2 : Nat) ^ (node_level x + 1) = 2 ^ node_level x * 2 := by ring
  rw [h2, ← Nat.mul_assoc]
  exact Nat.mul_mod_left _ 2

/-- Every in-tree node lies on the extended direct path of its leftmost
descendant leaf. -/
theorem covered_by_leftmost (i L : Nat) (hL : 1 ≤ L) (hi : i < 2 * L - 1) :
    subtree_lo i / 2 < L ∧ i ∈ node_extended_direct_path (2 * (subtree_lo i / 2)) L := by
  have heven := subtree_lo_even i
  have hlo_le := subtree_lo_le_self i
  have h2 : 2 * (subtree_lo i / 2) = subtree_lo i := by omega
  rw [h2]
  refine ⟨by omega, ?_⟩
  rw [mem_extended_direct_path]
  have hlvl0 : node_level (subtree_lo i) = 0 := node_level_of_even _ heven
  refine ⟨by omega, ?_, hi⟩
  exact anc_eq_of_mem_range i (subtree_lo i) le_rfl (le_trans hlo_le (self_le_subtree_hi i))

/-- After propagation from every leaf, every in-tree node is well keyed. -/
theorem propagateAll_wk (cs : CipherSuite) (ps : Nat → List Nat) (t0 : RatchetTree)
    (L : Nat) (hL : 1 ≤ L) (hsz : t0.size = 2 * L - 1) :
    ∀ i : Nat, i < 2 * L - 1 →
    ((propagateAll cs ps t0 L).nodes.getD i RatchetTreeNode.Blank).well_keyed = true := by
  intro i hi
  unfold propagateAll
  apply fold_propagate_wk cs L ps hL (List.range L) t0 hsz i
  refine Or.inr ⟨subtree_lo i / 2, ?_, ?_⟩
  · exact List.mem_range.mpr (covered_by_leftmost i L hL hi).1
  · exact (covered_by_leftmost i L hL hi).2

theorem propagateAll_size (cs : CipherSuite) (ps : Nat → List Nat) (t0 : RatchetTree)
    (L : Nat) :
    (propagateAll cs ps t0 L).size = t0.size := by
  unfold propagateAll
  induction List.range L generalizing t0 with
  | nil => rfl
  | cons c rest ih =>
    rw [List.foldl_cons, ih, propogate_new_path_secret_size]

/-! ## Proof development: evaluating encryption on a well-keyed tree -/

/-- A well-keyed node is exactly the `Filled` node holding the extracted
public key, private key, and secret, and the key pair matches. -/
theorem well_keyed_getD (t : RatchetTree) (x : Nat)
    (h : (t.nodes.getD x RatchetTreeNode.Blank).well_keyed = true) :
    t.nodes.getD x RatchetTreeNode.Blank =
      RatchetTreeNode.Filled (node_pk t x) (some (node_sk t x))
        (some (node_secret_of t x)) ∧
    node_pk t x = dh_public_of (node_sk t x) := by
  unfold node_pk node_sk node_secret_of
  cases hn : t.nodes.getD x RatchetTreeNode.Blank with
  | Blank =>
    rw [hn] at h
    exact absurd h (by simp [RatchetTreeNode.well_keyed])
  | Filled pk osk osec =>
    rw [hn] at h
    cases osk with
    | none => exact absurd h (by simp [RatchetTreeNode.well_keyed])
    | some sk =>
      cases osec with
      | none => exact absurd h (by simp [RatchetTreeNode.well_keyed])
      | some sec =>
        have hpk : pk = dh_public_of sk := by
          simpa [RatchetTreeNode.well_keyed] using h
        constructor
        · simp [RatchetTreeNode.get_public_key, RatchetTreeNode.get_private_key,
            RatchetTreeNode.get_secret]
        · simpa [RatchetTreeNode.get_public_key, RatchetTreeNode.get_private_key]
            using hpk

theorem well_keyed_is_filled (n : RatchetTreeNode) (h : n.well_keyed = true) :
    n.is_filled = true := by
  cases n with
  | Blank => simpa [RatchetTreeNode.well_keyed] using h
  | Filled pk osk osec => rfl

theorem get_eq_getD (t : RatchetTree) (x : Nat) (h : x < t.size) :
    t.get x = some (t.nodes.getD x RatchetTreeNode.Blank) := by
  unfold RatchetTree.get
  rw [List.get?_eq_get h, List.getD_eq_getElem?_getD, List.getElem?_eq_getElem h]
  rfl

/-- The resolution of a filled node is the singleton of that node. -/
theorem resolution_filled_singleton (t : RatchetTree) (x : Nat)
    (hfill : (t.nodes.getD x RatchetTreeNode.Blank).is_filled = true) :
    t.resolution x = [x] := by
  unfold RatchetTree.resolution
  cases hnode : t.nodes.getD x RatchetTreeNode.Blank with
  | Blank =>
    rw [hnode] at hfill
    exact absurd hfill (by simp [RatchetTreeNode.is_filled])
  | Filled pk sk sec =>
    exact resolutionAux_filled t.nodes _ (node_level x) x pk sk sec hnode

/-- Positions of the extended path below the last entry are the direct path. -/
theorem ext_get_eq_dp_get (s L : Nat) (hs : s < 2 * L - 1) (j : Nat)
    (hj : j < (node_direct_path s L).length)
    (hj2 : j < (node_extended_direct_path s L).length) :
    (node_extended_direct_path s L).get ⟨j, hj2⟩ = (node_direct_path s L).get ⟨j, hj⟩ := by
  have happ := extended_direct_path_eq_append s L hs
  have h1 : (node_extended_direct_path s L).get? j =
      some ((node_extended_direct_path s L).get ⟨j, hj2⟩) := List.get?_eq_get hj2
  have h2 : (node_extended_direct_path s L).get? j =
      some ((node_direct_path s L).get ⟨j, hj⟩) := by
    rw [happ, List.get?_append hj]
    exact List.get?_eq_get hj
  rw [h2] at h1
  exact (Option.some.inj h1).symm

theorem ext_length_eq_dp_length (s L : Nat) (hs : s < 2 * L - 1) :
    (node_extended_direct_path s L).length = (node_direct_path s L).length + 1 := by
  rw [extended_direct_path_eq_append s L hs, List.length_append]
  rfl

/-- Structural facts about a member of the direct path: its parent is the
next entry of the extended path, hence in tree, internal, and its sibling is
in tree. -/
theorem direct_path_mem_facts (s L : Nat) (hs : s < 2 * L - 1) :
    ∀ p ∈ node_direct_path s L,
      p ∈ node_extended_direct_path s L ∧
      node_parent p L ∈ node_extended_direct_path s L ∧
      1 ≤ node_level (node_parent p L) ∧
      node_parent p L < 2 * L - 1 ∧
      node_sibling p L < 2 * L - 1 := by
  intro p hp
  have happ := extended_direct_path_eq_append s L hs
  have hlen := ext_length_eq_dp_length s L hs
  obtain ⟨⟨j, hj⟩, hget⟩ := List.mem_iff_get.mp hp
  have hj2 : j < (node_extended_direct_path s L).length := by omega
  have hj3 : j + 1 < (node_extended_direct_path s L).length := by omega
  have hpe : (node_extended_direct_path s L).get ⟨j, hj2⟩ = p := by
    rw [ext_get_eq_dp_get s L hs j hj hj2]
    exact hget
  have hparent : node_parent p L = (node_extended_direct_path s L).get ⟨j + 1, hj3⟩ := by
    rw [← hpe]
    exact node_parent_get_extended s L j hj3
  have hpmem : p ∈ node_extended_direct_path s L := by
    rw [← hpe]
    exact List.get_mem _ j hj2
  have hparmem : node_parent p L ∈ node_extended_direct_path s L := by
    rw [hparent]
    exact List.get_mem _ (j + 1) hj3
  have hlvl : node_level p < node_level (node_parent p L) := by
    have hpw := (List.pairwise_iff_get.mp (extended_direct_path_pairwise s L))
      ⟨j, hj2⟩ ⟨j + 1, hj3⟩ (by exact Fin.mk_lt_mk.mpr (by omega))
    rw [hpe] at hpw
    rw [hparent]
    exact hpw
  have hparN : node_parent p L < 2 * L - 1 :=
    ((mem_extended_direct_path _ s L).mp hparmem).2.2
  refine ⟨hpmem, hparmem, by omega, hparN, ?_⟩
  unfold node_sibling
  by_cases hlt : p < node_parent p L
  · rw [if_pos hlt]
    exact (node_right_child_facts (node_parent p L) L (by omega) hparN).1
  · rw [if_neg hlt]
    have hne : node_parent p L ≠ 0 := by
      have := odd_of_node_level_pos (node_parent p L) (by omega)
      omega
    have := node_left_child_lt (node_parent p L) hne
    omega

/-- Evaluation of the encryption loop on a well-keyed tree: every node
message carries the parent's stored public key and the single encryption of
the parent's secret to the sibling's stored public key. -/
theorem encryptPathLoop_eval (cs : CipherSuite) (t : RatchetTree) (L rng : Nat)
    (hwk : ∀ i, i < t.size → (t.nodes.getD i RatchetTreeNode.Blank).well_keyed = true) :
    ∀ path : List Nat,
    (∀ p ∈ path, node_parent p L < t.size ∧ node_sibling p L < t.size) →
    encryptPathLoop cs t L rng path = Except.ok (path.map (pathMsgOf cs t L rng)) := by
  intro path
  induction path with
  | nil => intro _; rfl
  | cons p rest ih =>
    intro hall
    obtain ⟨hpar, hsib⟩ := hall p (List.mem_cons_self p rest)
    have hrest : ∀ q ∈ rest, node_parent q L < t.size ∧ node_sibling q L < t.size :=
      fun q hq => hall q (List.mem_cons_of_mem p hq)
    have hwkp := hwk _ hpar
    have hwks := hwk _ hsib
    obtain ⟨hpeq, hpkey⟩ := well_keyed_getD t _ hwkp
    obtain ⟨hseq, hskey⟩ := well_keyed_getD t _ hwks
    have hgetp : t.get (node_parent p L) = some (RatchetTreeNode.Filled
        (node_pk t (node_parent p L)) (some (node_sk t (node_parent p L)))
        (some (node_secret_of t (node_parent p L)))) := by
      rw [get_eq_getD t _ hpar, hpeq]
    have hres : t.resolution (node_sibling p L) = [node_sibling p L] :=
      resolution_filled_singleton t _ (well_keyed_is_filled _ hwks)
    simp only [encryptPathLoop]
    rw [hgetp]
    simp only [RatchetTreeNode.get_public_key, RatchetTreeNode.get_secret]
    rw [hres, List.mapM_cons, List.mapM_nil, hseq]
    simp only [RatchetTreeNode.get_public_key]
    rw [ih hrest]
    simp [Bind.bind, Except.bind, pure, Except.pure, List.map_cons, pathMsgOf]

/-- Evaluation of `encrypt_direct_path_secrets` on a well-keyed tree. -/
theorem encrypt_eval (t : RatchetTree) (cs : CipherSuite) (L s rng : Nat)
    (hsz : t.size = 2 * L - 1) (hL : 1 ≤ L)
    (hwk : ∀ i, i < t.size → (t.nodes.getD i RatchetTreeNode.Blank).well_keyed = true)
    (hs_even : s % 2 = 0) (hs : s < t.size) :
    t.encrypt_direct_path_secrets cs s rng =
      Except.ok ⟨DirectPathNodeMessage.mk (node_pk t s) [] ::
        (node_direct_path s L).map (pathMsgOf cs t L rng)⟩ := by
  have hnl : num_leaves_in_tree t.size = L := by
    rw [hsz]
    exact num_leaves_in_tree_odd L hL
  obtain ⟨hseq, _⟩ := well_keyed_getD t s (hwk s hs)
  have hgets : t.get s = some (RatchetTreeNode.Filled (node_pk t s)
      (some (node_sk t s)) (some (node_secret_of t s))) := by
    rw [get_eq_getD t s hs, hseq]
  have hpre : ∀ p ∈ node_direct_path s L,
      node_parent p L < t.size ∧ node_sibling p L < t.size := by
    intro p hp
    have hfacts := direct_path_mem_facts s L (by omega) p hp
    exact ⟨by omega, by omega⟩
  have hloop := encryptPathLoop_eval cs t L rng hwk (node_direct_path s L) hpre
  unfold RatchetTree.encrypt_direct_path_secrets
  rw [if_neg (by omega : ¬ s % 2 ≠ 0), hgets]
  simp only [RatchetTreeNode.get_public_key]
  rw [hnl, hloop]
  simp [Bind.bind, Except.bind]

/-! ## Proof development: locating the common ancestor during decryption -/

/-- Proper containment forces a strictly lower level. -/
theorem mem_range_level_lt (a d : Nat) (hlo : subtree_lo a ≤ d)
    (hhi : d ≤ subtree_hi a) (hne : d ≠ a) : node_level d < node_level a := by
  have hle := node_level_le_of_mem_range a d hlo hhi
  rcases Nat.lt_or_ge (node_level d) (node_level a) with h | h
  · exact h
  · exfalso
    have heq : node_level a = node_level d := by omega
    have h1 := anc_eq_of_mem_range a d hlo hhi
    have h2 := anc_node_level d
    rw [heq] at h1
    rw [h2] at h1
    exact hne h1

/-- A proper member of a range lies wholly on one side of the range's node. -/
theorem range_nest (a d : Nat) (hlo : subtree_lo a ≤ d) (hhi : d ≤ subtree_hi a)
    (hne : d ≠ a) :
    (d < a → subtree_hi d < a) ∧ (a < d → a < subtree_lo d) := by
  have hlvl := mem_range_level_lt a d hlo hhi hne
  constructor
  · intro hda
    by_contra hc
    push_neg at hc
    have h1 : subtree_lo d ≤ a := le_trans (subtree_lo_le_self d) (by omega)
    have := node_level_le_of_mem_range d a h1 hc
    omega
  · intro had
    by_contra hc
    push_neg at hc
    have h2 : a ≤ subtree_hi d := le_trans (by omega) (self_le_subtree_hi d)
    have := node_level_le_of_mem_range d a hc h2
    omega

/-- The decryption search loop on a singleton resolution holding the key. -/
theorem decryptResLoop_single (cs : CipherSuite) (t : RatchetTree) (L : Nat)
    (node_msg : DirectPathNodeMessage) (r ca cp : Nat) (ct : EciesCiphertext)
    (hcp : cp < t.size)
    (hwkcp : (t.nodes.getD cp RatchetTreeNode.Blank).well_keyed = true)
    (hanc : is_ancestor cp r L = true)
    (hctpk : ct.public_key = node_pk t cp)
    (hget0 : node_msg.node_secrets.get? 0 = some ct) :
    decryptResLoop cs t L node_msg r ca 0 [cp] = Except.ok (ct.payload, ca) := by
  obtain ⟨hcpeq, hcpkey⟩ := well_keyed_getD t cp hwkcp
  have hget : t.get cp = some (RatchetTreeNode.Filled (node_pk t cp)
      (some (node_sk t cp)) (some (node_secret_of t cp))) := by
    rw [get_eq_getD t cp hcp, hcpeq]
  simp only [decryptResLoop]
  rw [hget]
  simp only [RatchetTreeNode.get_private_key, Option.isSome_some, Bool.true_and]
  rw [hanc]
  simp only [if_true]
  rw [hget0]
  simp [ecies_decrypt, hctpk, hcpkey, Bind.bind, Except.bind]

/-- Evaluation of `decrypt_direct_path_message` on a well-keyed tree against
the message produced by encrypting sender `s`'s direct path: the receiver
`r` recovers exactly the secret stored at the common ancestor of `s` and
`r`, paired with the common ancestor's index. -/
theorem decrypt_eval (t : RatchetTree) (cs : CipherSuite) (L rng s r : Nat)
    (hsz : t.size = 2 * L - 1) (hL : 2 ≤ L)
    (hwk : ∀ i, i < t.size → (t.nodes.getD i RatchetTreeNode.Blank).well_keyed = true)
    (hs : s < t.size) (hr : r < t.size)
    (hsr : is_ancestor s r L = false) (hrs : is_ancestor r s L = false) :
    t.decrypt_direct_path_message cs
      ⟨DirectPathNodeMessage.mk (node_pk t s) [] ::
        (node_direct_path s L).map (pathMsgOf cs t L rng)⟩ s r =
      Except.ok (node_secret_of t (common_ancestor s r L), common_ancestor s r L) := by
  have hsN : s < 2 * L - 1 := by omega
  have hrN : r < 2 * L - 1 := by omega
  have hnl : num_leaves_in_tree t.size = L := by
    rw [hsz]
    exact num_leaves_in_tree_odd L (by omega)
  obtain ⟨hca_s, hca_r, hmin⟩ := common_ancestor_spec s r L hsN hrN
  set ca := common_ancestor s r L with hca
  have hca_s' := (is_ancestor_iff ca s L).mp hca_s
  have hca_r' := (is_ancestor_iff ca r L).mp hca_r
  have hcaN : ca < 2 * L - 1 := hca_s'.1
  have hs_ne_ca : s ≠ ca := by
    intro h
    have h2 : is_ancestor s r L = true := by rw [h]; exact hca_r
    rw [hsr] at h2
    exact absurd h2 (by simp)
  have hr_ne_ca : r ≠ ca := by
    intro h
    have h2 : is_ancestor r s L = true := by rw [h]; exact hca_s
    rw [hrs] at h2
    exact absurd h2 (by simp)
  have hlvl_s_lt : node_level s < node_level ca :=
    mem_range_level_lt ca s hca_s'.2.1 hca_s'.2.2 hs_ne_ca
  have hlvl_ca : 1 ≤ node_level ca := by omega
  obtain ⟨hLlvl, hLlo, hLhi⟩ := left_child_props ca hlvl_ca
  obtain ⟨hRN, hRlo, hRhi, hRlvl, hRrange⟩ := node_right_child_facts ca L hlvl_ca hcaN
  have hca0 : ca ≠ 0 := by
    have := odd_of_node_level_pos ca hlvl_ca
    omega
  have hlcN : node_left_child ca < 2 * L - 1 := by
    have := node_left_child_lt ca hca0
    omega
  have h_lc_anc : ∀ d, d < 2 * L - 1 → subtree_lo ca ≤ d → d < ca →
      is_ancestor (node_left_child ca) d L = true := by
    intro d hd h1 h2
    rw [is_ancestor_iff]
    refine ⟨hlcN, ?_, ?_⟩
    · rw [hLlo]; exact h1
    · rw [hLhi]; omega
  have h_lc_not : ∀ d, ca < d → ¬ (is_ancestor (node_left_child ca) d L = true) := by
    intro d hdca hc
    obtain ⟨h1, h2, h3⟩ := (is_ancestor_iff _ d L).mp hc
    rw [hLhi] at h3
    omega
  have h_rc_anc : ∀ d, d < 2 * L - 1 → ca < d → d ≤ subtree_hi ca →
      is_ancestor (node_right_child ca L) d L = true := by
    intro d hd h1 h2
    obtain ⟨hd1, hd2⟩ := hRrange d hd (by omega) h2
    rw [is_ancestor_iff]
    exact ⟨hRN, hd1, hd2⟩
  have hside : (s < ca ∧ ca < r) ∨ (r < ca ∧ ca < s) := by
    rcases Nat.lt_or_ge s ca with h1 | h1
    · rcases Nat.lt_or_ge r ca with h2 | h2
      · exfalso
        have ha_s := h_lc_anc s hsN hca_s'.2.1 h1
        have ha_r := h_lc_anc r hrN hca_r'.2.1 h2
        have hm := hmin _ ha_s ha_r
        rw [hLlvl] at hm
        omega
      · exact Or.inl ⟨h1, by omega⟩
    · rcases Nat.lt_or_ge r ca with h2 | h2
      · exact Or.inr ⟨h2, by omega⟩
      · exfalso
        have ha_s := h_rc_anc s hsN (by omega) hca_s'.2.2
        have ha_r := h_rc_anc r hrN (by omega) hca_r'.2.2
        have hm := hmin _ ha_s ha_r
        omega
  have hmem_ca : ca ∈ node_extended_direct_path s L := (mem_iff_is_ancestor ca s L).mpr hca_s
  obtain ⟨⟨k, hk⟩, hgetk⟩ := List.mem_iff_get.mp hmem_ca
  have hnodup := extended_direct_path_nodup s L
  have hbefore : ∀ i (hi : i < k),
      (node_extended_direct_path s L).get ⟨i, by omega⟩ ≠ ca := by
    intro i hi hc
    have heq : (⟨i, by omega⟩ : Fin (node_extended_direct_path s L).length) = ⟨k, hk⟩ :=
      hnodup.get_inj_iff.mp (by rw [hc, hgetk])
    have hik : i = k := congrArg Fin.val heq
    omega
  have hfind := enumFrom_find?_eq (node_extended_direct_path s L) ca 0 k hk hgetk hbefore
  have hk1 : 1 ≤ k := by
    by_contra hc
    obtain ⟨tail, hhead⟩ := extended_direct_path_head s L hsN
    have h0 : (node_extended_direct_path s L).get? 0 = some s := by
      rw [hhead]; rfl
    have h0' : (node_extended_direct_path s L).get? k = some ca := by
      rw [List.get?_eq_get hk, hgetk]
    rw [show k = 0 by omega] at h0'
    rw [h0] at h0'
    exact hs_ne_ca (Option.some.inj h0')
  have hlen := ext_length_eq_dp_length s L hsN
  have hk_dp : k - 1 < (node_direct_path s L).length := by omega
  have hk2 : k - 1 < (node_extended_direct_path s L).length := by omega
  set e := (node_direct_path s L).get ⟨k - 1, hk_dp⟩ with he
  have hee : (node_extended_direct_path s L).get ⟨k - 1, hk2⟩ = e :=
    ext_get_eq_dp_get s L hsN (k - 1) hk_dp hk2
  have hmsgk : (DirectPathNodeMessage.mk (node_pk t s) [] ::
      (node_direct_path s L).map (pathMsgOf cs t L rng)).get? k =
      some (pathMsgOf cs t L rng e) := by
    rw [show k = (k - 1) + 1 by omega, List.get?_cons_succ, List.get?_map,
      List.get?_eq_get hk_dp]
    rfl
  have hkk : k - 1 + 1 = k := by omega
  have hpar_e : node_parent e L = ca := by
    have hstep := node_parent_get_extended s L (k - 1) (by omega)
    rw [hee] at hstep
    rw [hstep]
    simp only [List.get_eq_getElem]
    simp only [hkk]
    simp only [List.get_eq_getElem] at hgetk
    exact hgetk
  have he_mem : e ∈ node_extended_direct_path s L := by
    rw [← hee]
    exact List.get_mem _ _ _
  have he_anc_s := (mem_iff_is_ancestor e s L).mp he_mem
  have he_s' := (is_ancestor_iff e s L).mp he_anc_s
  have hca_e : is_ancestor ca e L = true := by
    rw [← mem_iff_is_ancestor]
    rw [extended_direct_path_mem_eq_filter e s L he_mem, List.mem_filter]
    refine ⟨hmem_ca, ?_⟩
    simp only [decide_eq_true_eq]
    have hpw := (List.pairwise_iff_get.mp (extended_direct_path_pairwise s L))
      ⟨k - 1, hk2⟩ ⟨k, hk⟩ (Fin.mk_lt_mk.mpr (by omega))
    rw [hee, hgetk] at hpw
    omega
  have hca_e' := (is_ancestor_iff ca e L).mp hca_e
  have he_ne_ca : e ≠ ca := by
    intro h
    have heq : (⟨k - 1, hk2⟩ : Fin (node_extended_direct_path s L).length) = ⟨k, hk⟩ :=
      hnodup.get_inj_iff.mp (by rw [hee, hgetk, h])
    have hik : k - 1 = k := congrArg Fin.val heq
    omega
  have hnest := range_nest ca e hca_e'.2.1 hca_e'.2.2 he_ne_ca
  simp only [RatchetTree.decrypt_direct_path_message]
  rw [hnl]
  rw [if_neg (by omega : ¬ (s ≥ t.size ∨ r ≥ t.size))]
  rw [hsr, hrs]
  simp only [Bool.or_false, Bool.false_eq_true, if_false]
  rw [← hca]
  rw [show (node_extended_direct_path s L).enum =
    (node_extended_direct_path s L).enumFrom 0 from rfl]
  rw [hfind]
  simp only [Nat.zero_add]
  rw [hmsgk]
  rcases hside with ⟨hsl, hrr⟩ | ⟨hrl, hsg⟩
  · have he_lt : e < ca := by
      rcases Nat.lt_or_ge e ca with h | h
      · exact h
      · have h2 := hnest.2 (by omega)
        have h3 := he_s'.2.1
        omega
    have hsib : node_sibling e L = node_right_child ca L := by
      unfold node_sibling
      rw [hpar_e, if_pos he_lt]
    have hcop_false : ¬ (is_ancestor (node_left_child ca) r L = true) := h_lc_not r hrr
    have hcop_r : is_ancestor (node_right_child ca L) r L = true :=
      h_rc_anc r hrN hrr hca_r'.2.2
    rw [if_neg hcop_false]
    have hrcN : node_right_child ca L < t.size := by omega
    have hres : t.resolution (node_right_child ca L) = [node_right_child ca L] :=
      resolution_filled_singleton t _ (well_keyed_is_filled _ (hwk _ hrcN))
    rw [hres]
    have happly := decryptResLoop_single cs t L (pathMsgOf cs t L rng e) r ca
      (node_right_child ca L)
      (ecies_encrypt cs (node_pk t (node_sibling e L))
        (node_secret_of t (node_parent e L)) rng)
      hrcN (hwk _ hrcN) hcop_r
      (by show node_pk t (node_sibling e L) = node_pk t (node_right_child ca L)
          rw [hsib])
      rfl
    rw [show (ecies_encrypt cs (node_pk t (node_sibling e L))
      (node_secret_of t (node_parent e L)) rng).payload =
        node_secret_of t (node_parent e L) from rfl] at happly
    rw [hpar_e] at happly
    exact happly
  · have he_gt : ca < e := by
      rcases Nat.lt_or_ge ca e with h | h
      · exact h
      · have h2 := hnest.1 (by omega)
        have h3 := he_s'.2.2
        omega
    have hsib : node_sibling e L = node_left_child ca := by
      unfold node_sibling
      rw [hpar_e, if_neg (by omega : ¬ e < ca)]
    have hcop_true : is_ancestor (node_left_child ca) r L = true :=
      h_lc_anc r hrN hca_r'.2.1 hrl
    rw [if_pos hcop_true]
    have hlcN' : node_left_child ca < t.size := by omega
    have hres : t.resolution (node_left_child ca) = [node_left_child ca] :=
      resolution_filled_singleton t _ (well_keyed_is_filled _ (hwk _ hlcN'))
    rw [hres]
    have happly := decryptResLoop_single cs t L (pathMsgOf cs t L rng e) r ca
      (node_left_child ca)
      (ecies_encrypt cs (node_pk t (node_sibling e L))
        (node_secret_of t (node_parent e L)) rng)
      hlcN' (hwk _ hlcN') hcop_true
      (by show node_pk t (node_sibling e L) = node_pk t (node_left_child ca)
          rw [hsib])
      rfl
    rw [show (ecies_encrypt cs (node_pk t (node_sibling e L))
      (node_secret_of t (node_parent e L)) rng).payload =
        node_secret_of t (node_parent e L) from rfl] at happly
    rw [hpar_e] at happly
    exact happly

/-! ## Claim: the direct-path round trip -/

/-- C1: in a tree of `L ≥ 2` leaves in which `propogate_new_path_secret` has
been run from every leaf (so every node is Filled, holding a matching key
pair and a secret), for every even sender leaf index `s` and every in-tree
receiver index `r` with `r ≠ s`, neither an ancestor of the other,
`decrypt_direct_path_message` applied to the output of
`encrypt_direct_path_secrets cs s rng` with sender `s` and receiver `r`
returns `Ok` of the pair (secret stored at `common_ancestor s r L`,
`common_ancestor s r L`). -/
theorem direct_path_round_trip (t0 : RatchetTree) (cs : CipherSuite) (L : Nat)
    (ps : Nat → List Nat) (rng s r : Nat)
    (hL : 2 ≤ L) (hsz : t0.size = 2 * L - 1)
    (hs_even : s % 2 = 0) (hs : s < t0.size) (hr : r < t0.size) (hne : r ≠ s)
    (hsr : is_ancestor s r L = false) (hrs : is_ancestor r s L = false) :
    ∃ (msg : DirectPathMessage) (sec : List Nat),
      (propagateAll cs ps t0 L).encrypt_direct_path_secrets cs s rng = Except.ok msg ∧
      ((propagateAll cs ps t0 L).nodes.getD (common_ancestor s r L)
        RatchetTreeNode.Blank).get_secret = some sec ∧
      (propagateAll cs ps t0 L).decrypt_direct_path_message cs msg s r =
        Except.ok (sec, common_ancestor s r L) := by
  set t := propagateAll cs ps t0 L with ht
  have htsz : t.size = 2 * L - 1 := by
    rw [ht, propagateAll_size]
    exact hsz
  have hwk : ∀ i, i < t.size →
      (t.nodes.getD i RatchetTreeNode.Blank).well_keyed = true := by
    intro i hi
    rw [ht]
    exact propagateAll_wk cs ps t0 L (by omega) hsz i (by omega)
  have hsN : s < t.size := by omega
  have hrN : r < t.size := by omega
  obtain ⟨hca_s, hca_r, _⟩ := common_ancestor_spec s r L (by omega) (by omega)
  have hcaN : common_ancestor s r L < t.size := by
    have := ((is_ancestor_iff _ s L).mp hca_s).1
    omega
  obtain ⟨hcaeq, _⟩ := well_keyed_getD t _ (hwk _ hcaN)
  refine ⟨⟨DirectPathNodeMessage.mk (node_pk t s) [] ::
      (node_direct_path s L).map (pathMsgOf cs t L rng)⟩,
    node_secret_of t (common_ancestor s r L), ?_, ?_, ?_⟩
  · exact encrypt_eval t cs L s rng htsz (by omega) hwk hs_even hsN
  · rw [hcaeq]
    rfl
  · exact decrypt_eval t cs L rng s r htsz hL hwk hsN hrN hsr hrs

/-- Witness for C1 at `L = 2`: the all-blank three-node tree propagated from
both leaves, sender leaf 0, receiver leaf 2. -/
theorem direct_path_round_trip_witness :
    2 ≤ 2 ∧
    (RatchetTree.size ⟨[RatchetTreeNode.Blank, RatchetTreeNode.Blank,
      RatchetTreeNode.Blank]⟩ = 2 * 2 - 1) ∧
    0 % 2 = 0 ∧
    (0 < RatchetTree.size ⟨[RatchetTreeNode.Blank, RatchetTreeNode.Blank,
      RatchetTreeNode.Blank]⟩) ∧
    (2 < RatchetTree.size ⟨[RatchetTreeNode.Blank, RatchetTreeNode.Blank,
      RatchetTreeNode.Blank]⟩) ∧
    (2 ≠ 0) ∧
    is_ancestor 0 2 2 = false ∧
    is_ancestor 2 0 2 = false ∧
    (∃ (msg : DirectPathMessage) (sec : List Nat),
      (propagateAll exampleCS (fun l => [l])
        ⟨[RatchetTreeNode.Blank, RatchetTreeNode.Blank, RatchetTreeNode.Blank]⟩
        2).encrypt_direct_path_secrets exampleCS 0 0 = Except.ok msg ∧
      ((propagateAll exampleCS (fun l => [l])
        ⟨[RatchetTreeNode.Blank, RatchetTreeNode.Blank, RatchetTreeNode.Blank]⟩
        2).nodes.getD (common_ancestor 0 2 2) RatchetTreeNode.Blank).get_secret =
          some sec ∧
      (propagateAll exampleCS (fun l => [l])
        ⟨[RatchetTreeNode.Blank, RatchetTreeNode.Blank, RatchetTreeNode.Blank]⟩
        2).decrypt_direct_path_message exampleCS msg 0 2 =
        Except.ok (sec, common_ancestor 0 2 2)) :=
  ⟨by decide, by decide, by decide, by decide, by decide, by decide, by decide, by decide,
    direct_path_round_trip ⟨[RatchetTreeNode.Blank, RatchetTreeNode.Blank,
      RatchetTreeNode.Blank]⟩ exampleCS 2 (fun l => [l]) 0 0 2
      (by decide) (by decide) (by decide) (by decide) (by decide) (by decide)
      (by decide) (by decide)⟩

/-! ## Proof development: the wire codec -/

theorem beBytes_length (w n : Nat) : (beBytes w n).length = w := by
  induction w generalizing n with
  | zero => rfl
  | succ w ih =>
    simp only [beBytes, List.length_append, List.length_cons, List.length_nil, ih]

theorem beVal_concat (l : List Nat) (b : Nat) : beVal (l ++ [b]) = beVal l * 256 + b := by
  unfold beVal
  rw [List.foldl_append]
  rfl

theorem beVal_beBytes (w : Nat) : ∀ n : Nat, n < 256 ^ w → beVal (beBytes w n) = n := by
  induction w with
  | zero =>
    intro n h
    have : n = 0 := by simpa using h
    subst this
    rfl
  | succ w ih =>
    intro n h
    simp only [beBytes]
    rw [beVal_concat]
    have hdiv : n / 256 < 256 ^ w := by
      rw [Nat.div_lt_iff_lt_mul (by omega)]
      calc n < 256 ^ (w + 1) := h
      _ = 256 ^ w * 256 := by ring
    rw [ih (n / 256) hdiv]
    omega

theorem takeBE_beBytes (w n : Nat) (rest : List Nat) (h : n < 256 ^ w) :
    takeBE w (beBytes w n ++ rest) = some (n, rest) := by
  unfold takeBE
  have hlen := beBytes_length w n
  rw [if_pos (by rw [List.length_append]; omega)]
  rw [List.take_left' hlen, List.drop_left' hlen, beVal_beBytes w n h]

theorem takeBE_serU (w n : Nat) (b rest : List Nat) (h : serU w n = some b) :
    takeBE w (b ++ rest) = some (n, rest) := by
  unfold serU at h
  split at h
  · obtain rfl := Option.some.inj h
    exact takeBE_beBytes w n rest (by assumption)
  · exact absurd h (by simp)

theorem serU_length (w n : Nat) (b : List Nat) (h : serU w n = some b) :
    b.length = w := by
  unfold serU at h
  split at h
  · obtain rfl := Option.some.inj h
    exact beBytes_length w n
  · exact absurd h (by simp)

theorem deBytes_serBytes (w : Nat) (payload b rest : List Nat)
    (h : serBytes w payload = some b) :
    deBytes w (b ++ rest) = some (payload, rest) ∧ w + payload.length = b.length := by
  unfold serBytes at h
  split at h
  next hlt =>
    obtain rfl := Option.some.inj h
    constructor
    · unfold deBytes
      rw [List.append_assoc, takeBE_beBytes w payload.length (payload ++ rest) hlt]
      dsimp only []
      rw [if_pos (by rw [List.length_append]; omega)]
      rw [List.take_left' rfl, List.drop_left' rfl]
    · rw [List.length_append, beBytes_length]
  next => exact absurd h (by simp)

/-- Parsing elements off a concatenation of their encodings recovers the
original list, provided every encoding parses back and is nonempty. -/
theorem parseAll_join {α β : Type} (ser : α → Option (List Nat))
    (de : List Nat → Option (β × List Nat)) (g : α → β)
    (hde : ∀ x b rest, ser x = some b →
      de (b ++ rest) = some (g x, rest) ∧ 1 ≤ b.length) :
    ∀ (xs : List α) (chunks : List (List Nat)), xs.mapM ser = some chunks →
    ∀ fuel : Nat, (chunks.join).length ≤ fuel →
    parseAll de fuel (chunks.join) = some (xs.map g) := by
  intro xs
  induction xs with
  | nil =>
    intro chunks hmap fuel _
    have : chunks = [] := by
      rw [List.mapM_nil] at hmap
      exact (Option.some.inj hmap).symm
    subst this
    cases fuel with
    | zero => rfl
    | succ fuel => rfl
  | cons x xs ih =>
    intro chunks hmap fuel hfuel
    rw [List.mapM_cons] at hmap
    cases hb : ser x with
    | none => rw [hb] at hmap; exact absurd hmap (by simp)
    | some b =>
      rw [hb] at hmap
      cases hbs : xs.mapM ser with
      | none => rw [hbs] at hmap; exact absurd hmap (by simp)
      | some cbs =>
        rw [hbs] at hmap
        have hchunks : chunks = b :: cbs := by
          have : some (b :: cbs) = some chunks := by simpa using hmap
          exact (Option.some.inj this).symm
        subst hchunks
        obtain ⟨hparse, hblen⟩ := hde x b (cbs.join) hb
        have hjoin : (b :: cbs).join = b ++ cbs.join := by simp [List.join]
        rw [hjoin] at hfuel ⊢
        cases b with
        | nil => simp at hblen
        | cons hd tl =>
          simp only [List.length_append, List.length_cons] at hfuel
          cases fuel with
          | zero => omega
          | succ fuel =>
            show parseAll de (fuel + 1) (hd :: (tl ++ cbs.join)) = _
            simp only [parseAll]
            rw [show hd :: (tl ++ cbs.join) = (hd :: tl) ++ cbs.join from rfl, hparse]
            dsimp only []
            rw [if_pos (by simp only [List.length_append]; omega)]
            rw [ih cbs hbs fuel (by omega)]
            rfl

/-- The byte-counted vector field round-trips. -/
theorem deVec_serVec {α β : Type} (w : Nat) (ser : α → Option (List Nat))
    (de : List Nat → Option (β × List Nat)) (g : α → β)
    (hde : ∀ x b rest, ser x = some b →
      de (b ++ rest) = some (g x, rest) ∧ 1 ≤ b.length)
    (xs : List α) (b rest : List Nat) (h : serVec w ser xs = some b) :
    deVec w de (b ++ rest) = some (xs.map g, rest) ∧ w ≤ b.length := by
  unfold serVec at h
  split at h
  next => exact absurd h (by simp)
  next chunks hmap =>
    split at h
    next hlt =>
      obtain rfl := Option.some.inj h
      constructor
      · unfold deVec
        rw [List.append_assoc,
          takeBE_beBytes w (chunks.join).length (chunks.join ++ rest) hlt]
        dsimp only []
        rw [if_pos (by rw [List.length_append]; omega)]
        rw [List.take_left' rfl, List.drop_left' rfl]
        rw [parseAll_join ser de g hde xs chunks hmap (chunks.join).length le_rfl]
      · rw [List.length_append, beBytes_length]
        omega
    next => exact absurd h (by simp)

theorem dePk_serPk (pk : DhPublicKey) (b rest : List Nat) (h : serPk pk = some b) :
    dePk (b ++ rest) = some (pk, rest) ∧ 1 ≤ b.length := by
  obtain ⟨h1, h2⟩ := deBytes_serBytes 2 pk.key_bytes b rest h
  refine ⟨?_, by omega⟩
  unfold dePk
  rw [h1]

theorem deSig_serSig (s : Signature) (b rest : List Nat) (h : serSig s = some b) :
    deSig (b ++ rest) = some (s, rest) ∧ 1 ≤ b.length := by
  obtain ⟨h1, h2⟩ := deBytes_serBytes 2 s.sig_bytes b rest h
  refine ⟨?_, by omega⟩
  unfold deSig
  rw [h1]

theorem deCred_serCred (c : Credential) (b rest : List Nat) (h : serCred c = some b) :
    deCred (b ++ rest) = some (c, rest) ∧ 1 ≤ b.length := by
  obtain ⟨h1, h2⟩ := deBytes_serBytes 2 c.cred_bytes b rest h
  refine ⟨?_, by omega⟩
  unfold deCred
  rw [h1]

theorem takeBE_serU2 (n : Nat) (b rest : List Nat) (h : serU 2 n = some b) :
    takeBE 2 (b ++ rest) = some (n, rest) ∧ 1 ≤ b.length :=
  ⟨takeBE_serU 2 n b rest h, by rw [serU_length 2 n b h]; omega⟩

theorem deEcies_serEcies (ct : EciesCiphertext) (b rest : List Nat)
    (h : serEcies ct = some b) :
    deEcies (b ++ rest) = some (ct, rest) ∧ 1 ≤ b.length := by
  unfold serEcies at h
  split at h
  next => exact absurd h (by simp)
  next b1 hb1 =>
    split at h
    next => exact absurd h (by simp)
    next b2 hb2 =>
      obtain rfl := Option.some.inj h
      obtain ⟨hp1, hl1⟩ := dePk_serPk ct.public_key b1 (b2 ++ rest) hb1
      obtain ⟨hp2, hl2⟩ := deBytes_serBytes 2 ct.payload b2 rest hb2
      refine ⟨?_, by rw [List.length_append]; omega⟩
      unfold deEcies
      rw [List.append_assoc, hp1]
      dsimp only []
      rw [hp2]

theorem deDpnm_serDpnm (m : DirectPathNodeMessage) (b rest : List Nat)
    (h : serDpnm m = some b) :
    deDpnm (b ++ rest) = some (m, rest) ∧ 1 ≤ b.length := by
  unfold serDpnm at h
  split at h
  next => exact absurd h (by simp)
  next b1 hb1 =>
    split at h
    next => exact absurd h (by simp)
    next b2 hb2 =>
      obtain rfl := Option.some.inj h
      obtain ⟨hp1, hl1⟩ := dePk_serPk m.public_key b1 (b2 ++ rest) hb1
      obtain ⟨hp2, hl2⟩ := deVec_serVec 2 serEcies deEcies id
        (fun x bb rr hx => deEcies_serEcies x bb rr hx) m.node_secrets b2 rest hb2
      refine ⟨?_, by rw [List.length_append]; omega⟩
      unfold deDpnm
      rw [List.append_assoc, hp1]
      dsimp only []
      rw [hp2, List.map_id]

theorem deDpm_serDpm (m : DirectPathMessage) (b rest : List Nat)
    (h : serDpm m = some b) :
    deDpm (b ++ rest) = some (m, rest) := by
  obtain ⟨h1, _⟩ := deVec_serVec 2 serDpnm deDpnm id
    (fun x bb rr hx => deDpnm_serDpnm x bb rr hx) m.node_messages b rest h
  unfold deDpm
  rw [h1, List.map_id]

theorem deUik_serUik (u : UserInitKey) (b rest : List Nat) (h : serUik u = some b) :
    deUik (b ++ rest) = some (u, rest) := by
  unfold serUik at h
  split at h
  next => exact absurd h (by simp)
  next b1 hb1 =>
  split at h
  next => exact absurd h (by simp)
  next b2 hb2 =>
  split at h
  next => exact absurd h (by simp)
  next b3 hb3 =>
  split at h
  next => exact absurd h (by simp)
  next b4 hb4 =>
  split at h
  next => exact absurd h (by simp)
  next b5 hb5 =>
  split at h
  next => exact absurd h (by simp)
  next b6 hb6 =>
  obtain rfl := Option.some.inj h
  have h1 := (deBytes_serBytes 1 u.user_init_key_id b1
    (b2 ++ (b3 ++ (b4 ++ (b5 ++ (b6 ++ rest))))) hb1).1
  have h2 := (deBytes_serBytes 1 u.supported_versions b2
    (b3 ++ (b4 ++ (b5 ++ (b6 ++ rest)))) hb2).1
  have h3 := (deVec_serVec 1 (serU 2) (takeBE 2) id
    (fun x bb rr hx => takeBE_serU2 x bb rr hx) u.cipher_suites b3
    (b4 ++ (b5 ++ (b6 ++ rest))) hb3).1
  have h4 := (deVec_serVec 2 serPk dePk id
    (fun x bb rr hx => dePk_serPk x bb rr hx) u.init_keys b4
    (b5 ++ (b6 ++ rest)) hb4).1
  have h5 := (deCred_serCred u.credential b5 (b6 ++ rest) hb5).1
  have h6 := (deSig_serSig u.signature b6 rest hb6).1
  unfold deUik
  simp only [List.append_assoc]
  rw [h1]
  dsimp only []
  rw [h2]
  dsimp only []
  rw [h3, List.map_id]
  dsimp only []
  rw [h4, List.map_id]
  dsimp only []
  rw [h5]
  dsimp only []
  rw [h6]

theorem deOp_serOp (op : GroupOperation) (b rest : List Nat) (h : serOp op = some b) :
    deOp (b ++ rest) = some (op, rest) := by
  cases op with
  | Init g =>
    have hb : [0] = b := Option.some.inj h
    subst hb
    rfl
  | Add a =>
    simp only [serOp] at h
    split at h
    next => exact absurd h (by simp)
    next b1 hb1 =>
    split at h
    next => exact absurd h (by simp)
    next b2 hb2 =>
    split at h
    next => exact absurd h (by simp)
    next b3 hb3 =>
    obtain rfl := Option.some.inj h
    have h1 := takeBE_serU 4 a.index b1 (b2 ++ (b3 ++ rest)) hb1
    have h2 := deUik_serUik a.init_key b2 (b3 ++ rest) hb2
    have h3 := (deBytes_serBytes 1 a.welcome_info_hash b3 rest hb3).1
    show deOp (1 :: ((b1 ++ b2 ++ b3) ++ rest)) = some (GroupOperation.Add a, rest)
    unfold deOp
    dsimp only []
    rw [if_neg (by decide), if_pos rfl]
    simp only [List.append_assoc]
    rw [h1]
    dsimp only []
    rw [h2]
    dsimp only []
    rw [h3]
  | Update up =>
    simp only [serOp] at h
    split at h
    next => exact absurd h (by simp)
    next b1 hb1 =>
    obtain rfl := Option.some.inj h
    have h1 := deDpm_serDpm up.path b1 rest hb1
    show deOp (2 :: (b1 ++ rest)) = some (GroupOperation.Update up, rest)
    unfold deOp
    dsimp only []
    rw [if_neg (by decide), if_neg (by decide), if_pos rfl, h1]
  | Remove rm =>
    simp only [serOp] at h
    split at h
    next => exact absurd h (by simp)
    next b1 hb1 =>
    split at h
    next => exact absurd h (by simp)
    next b2 hb2 =>
    obtain rfl := Option.some.inj h
    have h1 := takeBE_serU 4 rm.removed b1 (b2 ++ rest) hb1
    have h2 := deDpm_serDpm rm.path b2 rest hb2
    show deOp (3 :: ((b1 ++ b2) ++ rest)) = some (GroupOperation.Remove rm, rest)
    unfold deOp
    dsimp only []
    rw [if_neg (by decide), if_neg (by decide), if_neg (by decide), if_pos rfl]
    simp only [List.append_assoc]
    rw [h1]
    dsimp only []
    rw [h2]

theorem deHandshake_serHandshake (hs : Handshake) (b rest : List Nat)
    (h : serHandshake hs = some b) :
    deHandshake (b ++ rest) = some (hs, rest) := by
  unfold serHandshake at h
  split at h
  next => exact absurd h (by simp)
  next b1 hb1 =>
  split at h
  next => exact absurd h (by simp)
  next b2 hb2 =>
  split at h
  next => exact absurd h (by simp)
  next b3 hb3 =>
  split at h
  next => exact absurd h (by simp)
  next b4 hb4 =>
  split at h
  next => exact absurd h (by simp)
  next b5 hb5 =>
  obtain rfl := Option.some.inj h
  have h1 := takeBE_serU 4 hs.prior_epoch b1 (b2 ++ (b3 ++ (b4 ++ (b5 ++ rest)))) hb1
  have h2 := deOp_serOp hs.operation b2 (b3 ++ (b4 ++ (b5 ++ rest))) hb2
  have h3 := takeBE_serU 4 hs.signer_index b3 (b4 ++ (b5 ++ rest)) hb3
  have h4 := (deSig_serSig hs.signature b4 (b5 ++ rest) hb4).1
  have h5 := (deBytes_serBytes 1 hs.confirmation b5 rest hb5).1
  unfold deHandshake
  simp only [List.append_assoc]
  rw [h1]
  dsimp only []
  rw [h2]
  dsimp only []
  rw [h3]
  dsimp only []
  rw [h4]
  dsimp only []
  rw [h5]

theorem deNode_serNode (n : RatchetTreeNode) (b rest : List Nat)
    (h : serNode n = some b) :
    deNode (b ++ rest) = some (n.scrub, rest) ∧ 1 ≤ b.length := by
  cases n with
  | Blank =>
    have hb : [0] = b := Option.some.inj h
    subst hb
    exact ⟨rfl, by simp⟩
  | Filled pk sk sec =>
    simp only [serNode] at h
    split at h
    next => exact absurd h (by simp)
    next b1 hb1 =>
    obtain rfl := Option.some.inj h
    obtain ⟨hp, hl⟩ := dePk_serPk pk b1 rest hb1
    refine ⟨?_, by simp⟩
    show deNode (1 :: (b1 ++ rest)) = some (RatchetTreeNode.Filled pk none none, rest)
    unfold deNode
    dsimp only []
    rw [if_neg (by decide), if_pos rfl, hp]

theorem deTree_serTree (t : RatchetTree) (b rest : List Nat) (h : serTree t = some b) :
    deTree (b ++ rest) = some (RatchetTree.mk (t.nodes.map RatchetTreeNode.scrub), rest) := by
  obtain ⟨h1, _⟩ := deVec_serVec 4 serNode deNode RatchetTreeNode.scrub
    deNode_serNode t.nodes b rest h
  unfold deTree
  rw [h1]

theorem serNode_scrub (n : RatchetTreeNode) : serNode n.scrub = serNode n := by
  cases n <;> rfl

theorem mapM_serNode_scrub (ns : List RatchetTreeNode) :
    (ns.map RatchetTreeNode.scrub).mapM serNode = ns.mapM serNode := by
  induction ns with
  | nil => rfl
  | cons n ns ih => rw [List.map_cons, List.mapM_cons, List.mapM_cons, serNode_scrub, ih]

theorem serTree_scrub (t : RatchetTree) :
    serTree ⟨t.nodes.map RatchetTreeNode.scrub⟩ = serTree t := by
  unfold serTree serVec
  rw [mk_nodes, mapM_serNode_scrub]

theorem map_scrub_eq_self (ns : List RatchetTreeNode)
    (h : ∀ n ∈ ns, n.scrub = n) : ns.map RatchetTreeNode.scrub = ns := by
  induction ns with
  | nil => rfl
  | cons n ns ih =>
    rw [List.map_cons, h n (by simp), ih (fun m hm => h m (by simp [hm]))]

/-- C5: the wire codec round-trips.  For every serializable `Handshake`,
`UserInitKey`, and `DirectPathMessage` (serializable meaning the serializer
succeeds, i.e. every field fits its declared width), deserialization of the
serialization returns the value exactly with no bytes left over.  For every
serializable `RatchetTree`, deserialization returns the tree with every
node's private key and secret dropped — these fields are `#[serde(skip)]`
and are never serialized (the encoding of a `Filled` node does not depend on
them) — so the round trip is the identity precisely on trees carrying no
private material, which is every tree that itself came off the wire.
Consequently, on every byte string produced by the codec, deserializing and
re-serializing reproduces the bytes exactly (bit-exact round trip). -/
theorem codec_round_trip :
    (∀ (h : Handshake) (bs : List Nat), serHandshake h = some bs →
      deHandshake bs = some (h, [])) ∧
    (∀ (u : UserInitKey) (bs : List Nat), serUik u = some bs →
      deUik bs = some (u, [])) ∧
    (∀ (m : DirectPathMessage) (bs : List Nat), serDpm m = some bs →
      deDpm bs = some (m, [])) ∧
    (∀ (t : RatchetTree) (bs : List Nat), serTree t = some bs →
      deTree bs = some (RatchetTree.mk (t.nodes.map RatchetTreeNode.scrub), []) ∧
      ((∀ n ∈ t.nodes, n.scrub = n) → deTree bs = some (t, []))) ∧
    (∀ (pk : DhPublicKey) (sk1 sk2 : Option DhPrivateKey)
        (sec1 sec2 : Option (List Nat)),
      serNode (RatchetTreeNode.Filled pk sk1 sec1) =
        serNode (RatchetTreeNode.Filled pk sk2 sec2)) ∧
    (∀ (h : Handshake) (bs : List Nat), serHandshake h = some bs →
      ∃ y, deHandshake bs = some (y, []) ∧ serHandshake y = some bs) ∧
    (∀ (u : UserInitKey) (bs : List Nat), serUik u = some bs →
      ∃ y, deUik bs = some (y, []) ∧ serUik y = some bs) ∧
    (∀ (m : DirectPathMessage) (bs : List Nat), serDpm m = some bs →
      ∃ y, deDpm bs = some (y, []) ∧ serDpm y = some bs) ∧
    (∀ (t : RatchetTree) (bs : List Nat), serTree t = some bs →
      ∃ y, deTree bs = some (y, []) ∧ serTree y = some bs) := by
  have hH : ∀ (h : Handshake) (bs : List Nat), serHandshake h = some bs →
      deHandshake bs = some (h, []) := by
    intro h bs hs
    have := deHandshake_serHandshake h bs [] hs
    rwa [List.append_nil] at this
  have hU : ∀ (u : UserInitKey) (bs : List Nat), serUik u = some bs →
      deUik bs = some (u, []) := by
    intro u bs hs
    have := deUik_serUik u bs [] hs
    rwa [List.append_nil] at this
  have hM : ∀ (m : DirectPathMessage) (bs : List Nat), serDpm m = some bs →
      deDpm bs = some (m, []) := by
    intro m bs hs
    have := deDpm_serDpm m bs [] hs
    rwa [List.append_nil] at this
  have hT : ∀ (t : RatchetTree) (bs : List Nat), serTree t = some bs →
      deTree bs = some (RatchetTree.mk (t.nodes.map RatchetTreeNode.scrub), []) := by
    intro t bs hs
    have := deTree_serTree t bs [] hs
    rwa [List.append_nil] at this
  refine ⟨hH, hU, hM, ?_, ?_, ?_, ?_, ?_, ?_⟩
  · intro t bs hs
    refine ⟨hT t bs hs, ?_⟩
    intro hsc
    have h1 := hT t bs hs
    rw [map_scrub_eq_self t.nodes hsc] at h1
    exact h1
  · intro pk sk1 sk2 sec1 sec2
    rfl
  · intro h bs hs
    exact ⟨h, hH h bs hs, hs⟩
  · intro u bs hs
    exact ⟨u, hU u bs hs, hs⟩
  · intro m bs hs
    exact ⟨m, hM m bs hs, hs⟩
  · intro t bs hs
    refine ⟨⟨t.nodes.map RatchetTreeNode.scrub⟩, hT t bs hs, ?_⟩
    rw [serTree_scrub t]
    exact hs

/-- Witness for C5: a concrete `Handshake` and a concrete tree whose filled
node carries a private key and secret, with their exact wire bytes. -/
theorem codec_round_trip_witness :
    serHandshake ⟨1, GroupOperation.Init ⟨⟩, 3, ⟨[1]⟩, [2]⟩ =
      some [0, 0, 0, 1, 0, 0, 0, 0, 3, 0, 1, 1, 1, 2] ∧
    deHandshake [0, 0, 0, 1, 0, 0, 0, 0, 3, 0, 1, 1, 1, 2] =
      some (⟨1, GroupOperation.Init ⟨⟩, 3, ⟨[1]⟩, [2]⟩, []) ∧
    serTree ⟨[RatchetTreeNode.Filled ⟨[7]⟩ (some ⟨[7]⟩) (some [9]),
      RatchetTreeNode.Blank]⟩ = some [0, 0, 0, 5, 1, 0, 1, 7, 0] ∧
    deTree [0, 0, 0, 5, 1, 0, 1, 7, 0] =
      some (⟨[RatchetTreeNode.Filled ⟨[7]⟩ none none, RatchetTreeNode.Blank]⟩, []) :=
  ⟨by decide, codec_round_trip.1 ⟨1, GroupOperation.Init ⟨⟩, 3, ⟨[1]⟩, [2]⟩
      [0, 0, 0, 1, 0, 0, 0, 0, 3, 0, 1, 1, 1, 2] (by decide),
    by decide,
    (codec_round_trip.2.2.2.1 ⟨[RatchetTreeNode.Filled ⟨[7]⟩ (some ⟨[7]⟩) (some [9]),
      RatchetTreeNode.Blank]⟩ [0, 0, 0, 5, 1, 0, 1, 7, 0] (by decide)).1⟩

end Molasses
